import Mathlib

/-!
# Verification of the colony configuration resolver

Shallow embedding of the core pipeline of the `colony` configuration
loader: rule resolution (`src/resolver.js` / `src/util.js`), placeholder
interpolation (`src/strings.js`), secret substitution and the secret
cache (`src/secrets.js`), and the statement parser (`src/parser.js`).

JavaScript values flowing through the pipeline (null, booleans, numbers,
strings, arrays, plain objects) are modelled by the inductive type
`Value`.  JS numbers are IEEE doubles; the model uses `Rat`, which agrees
with JS on every numeric literal the tests and claims exercise (doubles
and rationals only diverge on literals needing more than ~15 significant
digits).  JS object property order is significant (`Map` and object
iteration order), so objects are association lists in insertion order.
-/

inductive Value where
  | null
  | bool (b : Bool)
  | num (n : Rat)
  | str (s : String)
  | arr (xs : List Value)
  | obj (fields : List (String × Value))
  deriving Repr

mutual

def Value.beq : Value → Value → Bool
  | .null, .null => true
  | .bool a, .bool b => a == b
  | .num a, .num b => a == b
  | .str a, .str b => a == b
  | .arr xs, .arr ys => Value.beqList xs ys
  | .obj xs, .obj ys => Value.beqFields xs ys
  | _, _ => false

def Value.beqList : List Value → List Value → Bool
  | [], [] => true
  | x :: xs, y :: ys => Value.beq x y && Value.beqList xs ys
  | _, _ => false

def Value.beqFields : List (String × Value) → List (String × Value) → Bool
  | [], [] => true
  | (k, v) :: xs, (k', v') :: ys => k == k' && Value.beq v v' && Value.beqFields xs ys
  | _, _ => false

end

mutual

theorem Value.beq_refl : ∀ a : Value, Value.beq a a = true
  | .null => rfl
  | .bool b => by simp [Value.beq]
  | .num n => by simp [Value.beq]
  | .str s => by simp [Value.beq]
  | .arr xs => by simp [Value.beq, Value.beqList_refl xs]
  | .obj xs => by simp [Value.beq, Value.beqFields_refl xs]

theorem Value.beqList_refl : ∀ xs : List Value, Value.beqList xs xs = true
  | [] => rfl
  | x :: xs => by simp [Value.beqList, Value.beq_refl x, Value.beqList_refl xs]

theorem Value.beqFields_refl : ∀ xs : List (String × Value), Value.beqFields xs xs = true
  | [] => rfl
  | (k, v) :: xs => by simp [Value.beqFields, Value.beq_refl v, Value.beqFields_refl xs]

end

mutual

theorem Value.eq_of_beq : ∀ a b : Value, Value.beq a b = true → a = b
  | .null, .null, _ => rfl
  | .bool a, .bool b, h => by simpa [Value.beq] using h
  | .num a, .num b, h => by simpa [Value.beq] using h
  | .str a, .str b, h => by simpa [Value.beq] using h
  | .arr xs, .arr ys, h => by
      have := Value.eqList_of_beq xs ys (by simpa [Value.beq] using h)
      simp [this]
  | .obj xs, .obj ys, h => by
      have := Value.eqFields_of_beq xs ys (by simpa [Value.beq] using h)
      simp [this]
  | .null, .bool _, h => by simp [Value.beq] at h
  | .null, .num _, h => by simp [Value.beq] at h
  | .null, .str _, h => by simp [Value.beq] at h
  | .null, .arr _, h => by simp [Value.beq] at h
  | .null, .obj _, h => by simp [Value.beq] at h
  | .bool _, .null, h => by simp [Value.beq] at h
  | .bool _, .num _, h => by simp [Value.beq] at h
  | .bool _, .str _, h => by simp [Value.beq] at h
  | .bool _, .arr _, h => by simp [Value.beq] at h
  | .bool _, .obj _, h => by simp [Value.beq] at h
  | .num _, .null, h => by simp [Value.beq] at h
  | .num _, .bool _, h => by simp [Value.beq] at h
  | .num _, .str _, h => by simp [Value.beq] at h
  | .num _, .arr _, h => by simp [Value.beq] at h
  | .num _, .obj _, h => by simp [Value.beq] at h
  | .str _, .null, h => by simp [Value.beq] at h
  | .str _, .bool _, h => by simp [Value.beq] at h
  | .str _, .num _, h => by simp [Value.beq] at h
  | .str _, .arr _, h => by simp [Value.beq] at h
  | .str _, .obj _, h => by simp [Value.beq] at h
  | .arr _, .null, h => by simp [Value.beq] at h
  | .arr _, .bool _, h => by simp [Value.beq] at h
  | .arr _, .num _, h => by simp [Value.beq] at h
  | .arr _, .str _, h => by simp [Value.beq] at h
  | .arr _, .obj _, h => by simp [Value.beq] at h
  | .obj _, .null, h => by simp [Value.beq] at h
  | .obj _, .bool _, h => by simp [Value.beq] at h
  | .obj _, .num _, h => by simp [Value.beq] at h
  | .obj _, .str _, h => by simp [Value.beq] at h
  | .obj _, .arr _, h => by simp [Value.beq] at h

theorem Value.eqList_of_beq : ∀ xs ys : List Value, Value.beqList xs ys = true → xs = ys
  | [], [], _ => rfl
  | x :: xs, y :: ys, h => by
      have h1 : Value.beq x y = true := by
        have := h; simp [Value.beqList] at this; exact this.1
      have h2 : Value.beqList xs ys = true := by
        have := h; simp [Value.beqList] at this; exact this.2
      simp [Value.eq_of_beq x y h1, Value.eqList_of_beq xs ys h2]
  | [], _ :: _, h => by simp [Value.beqList] at h
  | _ :: _, [], h => by simp [Value.beqList] at h

theorem Value.eqFields_of_beq :
    ∀ xs ys : List (String × Value), Value.beqFields xs ys = true → xs = ys
  | [], [], _ => rfl
  | (k, v) :: xs, (k', v') :: ys, h => by
      have h0 : k = k' := by
        have := h; simp [Value.beqFields] at this; exact this.1.1
      have h1 : Value.beq v v' = true := by
        have := h; simp [Value.beqFields] at this; exact this.1.2
      have h2 : Value.beqFields xs ys = true := by
        have := h; simp [Value.beqFields] at this; exact this.2
      simp [h0, Value.eq_of_beq v v' h1, Value.eqFields_of_beq xs ys h2]
  | [], _ :: _, h => by simp [Value.beqFields] at h
  | _ :: _, [], h => by simp [Value.beqFields] at h

end

instance : DecidableEq Value := fun a b =>
  if h : Value.beq a b = true then .isTrue (Value.eq_of_beq a b h)
  else .isFalse (fun he => h (he ▸ Value.beq_refl a))

/-! ## JS `Map` / object property helpers

JS `Map`s and plain objects preserve insertion order; setting an existing
key keeps its position, setting a new key appends.  Association lists
with these operations model them exactly (keys are unique by
construction everywhere they are used). -/

/-- JS whitespace as used by `trim()` and `\s` (the ASCII part; the
exotic Unicode space characters JS also accepts do not occur in the
claims or tests and are outside the model). -/
def isWSChar (c : Char) : Bool :=
  c == ' ' || c == '\t' || c == '\n' || c == '\r' || c == '\x0b' || c == '\x0c'

/-- JS `s.trim()`, defined on the character list so that the kernel can
evaluate it. -/
def jsTrim (s : String) : String :=
  String.mk (((s.toList.dropWhile isWSChar).reverse.dropWhile isWSChar).reverse)

/-- JS `s.startsWith(pre)` (kernel-evaluable). -/
def strStartsWith (s pre : String) : Bool := pre.toList.isPrefixOf s.toList

/-- `map.get(key)` / property read: first (only) binding of `key`. -/
def jsMapGet {α : Type} : List (String × α) → String → Option α
  | [], _ => none
  | (k, v) :: rest, key => if k = key then some v else jsMapGet rest key

/-- `map.set(key, v)` / property write: update in place, or append. -/
def jsMapSet {α : Type} : List (String × α) → String → α → List (String × α)
  | [], key, v => [(key, v)]
  | (k, w) :: rest, key, v =>
      if k = key then (key, v) :: rest else (k, w) :: jsMapSet rest key v

/-- `map.delete(key)`: removes the binding of `key` (keys are unique). -/
def jsMapDelete {α : Type} : List (String × α) → String → List (String × α)
  | [], _ => []
  | (k, v) :: rest, key => if k = key then rest else (k, v) :: jsMapDelete rest key

/-! ## Embedding of `src/util.js` -/

/-- `isPlainObject(x)`: non-null, `typeof "object"`, not an array. -/
def isPlainObject : Value → Bool
  | .obj _ => true
  | _ => false

/-- Canonical array index for JS string-keyed array access (`arr["3"]`):
digits only, no leading zero except `"0"` itself. -/
def toArrayIndex (s : String) : Option Nat :=
  match s.toList with
  | [] => none
  | l =>
      if l.all Char.isDigit ∧ (l.head? = some '0' → l = ['0']) then
        some (l.foldl (fun n c => n * 10 + (c.toNat - 48)) 0)
      else none

/-- JS property read on an array value: a canonical numeric index yields
the element, `"length"` yields the length.  Method properties such as
`"push"` hold functions, which are outside the value model; `getDeep`
can only return them as a final result, never traverse through them, and
no caller looks such keys up, so they are modelled as absent. -/
def arrIndex (xs : List Value) (k : String) : Option Value :=
  if k = "length" then some (.num xs.length)
  else match toArrayIndex k with
    | some i => xs.get? i
    | none => none

/-- `getDeep(obj, pathSegs)` from `src/util.js`: walk `pathSegs`, failing
(`undefined`) as soon as the cursor is neither a plain object nor an
array, or the key is absent. -/
def getDeep : Value → List String → Option Value
  | cur, [] => some cur
  | .obj fs, k :: ks =>
      match jsMapGet fs k with
      | some v => getDeep v ks
      | none => none
  | .arr xs, k :: ks =>
      match arrIndex xs k with
      | some v => getDeep v ks
      | none => none
  | _, _ :: _ => none

/-- `setDeep(obj, pathSegs, value)` from `src/util.js`, on the fields of
the root object.  The JS cursor always sits on a plain object: it starts
at the root and any intermediate value that is not a plain object is
replaced by `{}` before descending.  An empty path writes nothing (the
JS loop body never runs). -/
def setDeep : List (String × Value) → List String → Value → List (String × Value)
  | fs, [], _ => fs
  | fs, [k], v => jsMapSet fs k v
  | fs, k :: k' :: ks, v =>
      let child : List (String × Value) :=
        match jsMapGet fs k with
        | some (.obj f) => f
        | _ => []
      jsMapSet fs k (.obj (setDeep child (k' :: ks) v))

mutual

/-- `deepMerge(a, b)` from `src/util.js`: array/array keeps `b`,
object/object merges per key recursively (`b` wins), otherwise `b`. -/
def deepMerge : Value → Value → Value
  | .arr _, .arr ys => .arr ys
  | .obj a, .obj b => .obj (mergeInto a b)
  | _, b => b

/-- The object/object case of `deepMerge`: `out = {...a}` then
`out[k] = k in out ? deepMerge(out[k], v) : v` for each `(k, v)` of `b`. -/
def mergeInto (out : List (String × Value)) : List (String × Value) → List (String × Value)
  | [] => out
  | (k, v) :: rest =>
      let out' :=
        match jsMapGet out k with
        | some w => jsMapSet out k (deepMerge w v)
        | none => jsMapSet out k v
      mergeInto out' rest

end

/-- `clone(v)` from `src/resolver.js` deep-copies a JS value so that rule
values and resolver output never share references.  Under value
semantics a deep copy is the identity; the one place reference identity
is observable after cloning (`Set.has` in the `-=` operator) is modelled
by `sameValueZero` below. -/
def clone (v : Value) : Value := v

/-- JS `Set.has` (SameValueZero) membership as used by the `-=` operator
in `src/resolver.js`.  Scalars compare by value.  The removal items are
`clone`d before being put in the set, so an array or object in the set
is a fresh reference that can never be identical to an element of the
existing sequence; membership for non-scalars is therefore always false.
(`NaN` and `-0`, where SameValueZero differs from `===`, cannot be
produced by the parser's numeric literals and are outside the model.) -/
def sameValueZero : Value → Value → Bool
  | .null, .null => true
  | .bool a, .bool b => a == b
  | .num a, .num b => a == b
  | .str a, .str b => a == b
  | _, _ => false

/-! ## Embedding of `src/strings.js` (placeholder interpolation)

Warnings are modelled structurally (type plus the identifying fields);
the human-readable `message` string the source also attaches is derived
data and carried implicitly by the constructor. -/

inductive Warning where
  | blockedEnvVar (v : String)
  | blockedVar (v : String)
  | unknownVar (v : String)
  | unknownCtx (v : String)
  | unknownInterpolation (pat : String)
  | blockedSecret (provider key : String)
  | secretNotFound (provider key : String)
  | secretFetchError (provider key : String)
  | unknownProvider (provider key : String)
  deriving DecidableEq, Repr

/-- The inputs `interpolate` closes over.  `envSource` is the merged
environment (`env ? { ...process.env, ...env } : process.env`); the
process environment is external state, so the model takes the merged
source as a parameter. -/
structure InterpCtx where
  ctx : String → Option String
  vars : String → Option String
  envSource : String → Option String
  allowedEnvVars : Option (List String)
  allowedVars : Option (List String)

/-- `[A-Z]` -/
def isUpperAZ (c : Char) : Bool := 'A' ≤ c && c ≤ 'Z'

/-- `[A-Z0-9_]` -/
def isProvChar (c : Char) : Bool :=
  isUpperAZ c || ('0' ≤ c && c ≤ '9') || c == '_'

/-- `RX_SECRET_PROVIDER = /^[A-Z][A-Z0-9_]*:/` applied to the trimmed
inner expression: an uppercase identifier immediately followed by a
colon.  The greedy `[A-Z0-9_]*` run cannot backtrack usefully (a colon
is not in the class), so the maximal run followed by `:` is exact. -/
def secretShaped (s : String) : Bool :=
  match s.toList with
  | [] => false
  | c :: rest => isUpperAZ c && ((rest.dropWhile isProvChar).head? == some ':')

/-- One match attempt of `/\$\{([^}]+)\}/` at the head of the character
list: `${`, then one or more non-`}` characters (greedy, exact since the
class excludes `}`), then `}`.  Returns the inner characters and the
remainder after the closing brace. -/
def matchInterpAt : List Char → Option (List Char × List Char)
  | c1 :: c2 :: tl =>
      if c1 = '$' ∧ c2 = '{' then
        let inner := tl.takeWhile (fun c => !(c == '}'))
        if inner.isEmpty then none
        else if (tl.drop inner.length).head? = some '}' then
          some (inner, (tl.drop inner.length).tail)
        else none
      else none
  | _ => none

theorem matchInterpAt_length_lt {l inner rest : List Char}
    (h : matchInterpAt l = some (inner, rest)) : rest.length < l.length := by
  unfold matchInterpAt at h
  split at h
  case h_2 => simp at h
  case h_1 c1 c2 tl =>
    split at h
    · simp only [] at h
      split at h
      · simp at h
      · split at h
        · obtain ⟨h1, h2⟩ : inner = _ ∧ (tl.drop _).tail = rest := by
            simpa [eq_comm] using h
          have hne : (tl.drop (tl.takeWhile (fun c => !(c == '}'))).length).length ≠ 0 := by
            intro h0
            rename_i hhd
            rw [List.length_eq_zero] at h0
            simp [h0] at hhd
          have hdl : (tl.drop (tl.takeWhile (fun c => !(c == '}'))).length).length
              ≤ tl.length := by
            simpa using List.length_drop_le _ tl
          have htl : rest.length
              = (tl.drop (tl.takeWhile (fun c => !(c == '}'))).length).length - 1 := by
            rw [← h2, List.length_tail]
          simp only [List.length_cons]
          omega
        · simp at h
    · simp at h

/-- The replacement callback of `interpolate` for one `${...}` span:
given the raw inner characters, returns the replacement text and the
warnings pushed.  `matchStr` is the whole original span. -/
def interpOne (icfg : InterpCtx) (inner : List Char) : String × List Warning :=
  let matchStr := "$\x7b" ++ String.mk inner ++ "\x7d"
  let expr := jsTrim (String.mk inner)
  if strStartsWith expr "ENV:" then
    let k := jsTrim (expr.drop 4)
    match icfg.allowedEnvVars with
    | some allowed =>
        if !(allowed.contains k) then ("", [.blockedEnvVar k])
        else ((icfg.envSource k).getD "", [])
    | none => ((icfg.envSource k).getD "", [])
  else if strStartsWith expr "VAR:" then
    let k := jsTrim (expr.drop 4)
    let blocked :=
      match icfg.allowedVars with
      | some allowed => !(allowed.contains k)
      | none => false
    if blocked then ("", [.blockedVar k])
    else
      match icfg.vars k with
      | none => ("", [.unknownVar k])
      | some v => (v, [])
  else if strStartsWith expr "ctx." then
    let k := jsTrim (expr.drop 4)
    match icfg.ctx k with
    | none => ("", [.unknownCtx k])
    | some v => (v, [])
  else if secretShaped expr then
    (matchStr, [])
  else
    ("", [.unknownInterpolation matchStr])

/-- The scan of `s.replace(/\$\{([^}]+)\}/g, cb)`: leftmost matches,
non-overlapping, replacement text not re-scanned; on a failed match the
scan advances one character.  Recursion is by fuel so that the kernel
can evaluate the definition; a successful match consumes at least one
character (`matchInterpAt_length_lt`), so fuel `≥` the list length never
runs out (`interpGo_fuel`). -/
def interpGo (icfg : InterpCtx) : Nat → List Char → List Char × List Warning
  | _, [] => ([], [])
  | 0, l => (l, [])
  | fuel + 1, c :: cs =>
      match matchInterpAt (c :: cs) with
      | some (inner, rest) =>
          let rpl := interpOne icfg inner
          let tl := interpGo icfg fuel rest
          (rpl.1.toList ++ tl.1, rpl.2 ++ tl.2)
      | none =>
          let tl := interpGo icfg fuel cs
          (c :: tl.1, tl.2)

/-- Fuel is irrelevant as long as it covers the list length. -/
theorem interpGo_fuel (icfg : InterpCtx) :
    ∀ (f g : Nat) (l : List Char), l.length ≤ f → l.length ≤ g →
      interpGo icfg f l = interpGo icfg g l := by
  intro f
  induction f using Nat.strong_induction_on with
  | _ f ih =>
    intro g l hf hg
    match l, f, g with
    | [], _, _ => cases f <;> cases g <;> simp [interpGo]
    | c :: cs, f' + 1, g' + 1 =>
        simp only [interpGo]
        match hm : matchInterpAt (c :: cs) with
        | some (inner, rest) =>
            have hlt := matchInterpAt_length_lt hm
            simp only [List.length_cons] at hlt hf hg
            have h1 : rest.length ≤ f' := by omega
            have h2 : rest.length ≤ g' := by omega
            simp only [ih f' (by omega) g' rest h1 h2]
        | none =>
            simp only [List.length_cons] at hf hg
            have h1 : cs.length ≤ f' := by omega
            have h2 : cs.length ≤ g' := by omega
            simp only [ih f' (by omega) g' cs h1 h2]

/-- `interpolate(s, {...})` from `src/strings.js`: returns the new
string and the warnings pushed (the source appends them to a shared
array). -/
def interpolate (icfg : InterpCtx) (s : String) : String × List Warning :=
  let r := interpGo icfg s.toList.length s.toList
  (String.mk r.1, r.2)

mutual

/-- `applyInterpolationDeep(value, {...})` from `src/strings.js`:
interpolate every string leaf, recurse through arrays and plain
objects, pass every other value through unchanged.  Warnings are
collected in traversal order. -/
def applyInterpolationDeep (icfg : InterpCtx) : Value → Value × List Warning
  | .str s =>
      let r := interpolate icfg s
      (.str r.1, r.2)
  | .arr xs =>
      let r := interpDeepList icfg xs
      (.arr r.1, r.2)
  | .obj fs =>
      let r := interpDeepFields icfg fs
      (.obj r.1, r.2)
  | v => (v, [])

def interpDeepList (icfg : InterpCtx) : List Value → List Value × List Warning
  | [] => ([], [])
  | v :: vs =>
      let r := applyInterpolationDeep icfg v
      let rest := interpDeepList icfg vs
      (r.1 :: rest.1, r.2 ++ rest.2)

def interpDeepFields (icfg : InterpCtx) :
    List (String × Value) → List (String × Value) × List Warning
  | [] => ([], [])
  | (k, v) :: fs =>
      let r := applyInterpolationDeep icfg v
      let rest := interpDeepFields icfg fs
      ((k, r.1) :: rest.1, r.2 ++ rest.2)

end

/-! ## Embedding of `src/resolver.js` -/

/-- The five rule operators: `=`, `:=`, `|=`, `+=`, `-=`. -/
inductive Op where
  | assign
  | ifMissing
  | merge
  | append
  | remove
  deriving DecidableEq, Repr

/-- A parsed rule statement (the record produced by `parseColony`). -/
structure Rule where
  filePath : String
  line : Nat
  col : Nat
  keyRaw : String
  keySegments : List String
  op : Op
  value : Value
  deriving DecidableEq, Repr

/-- An indexed rule: `{ ...r, scope, keyPath, keyPathStr }`. -/
structure IRule extends Rule where
  scope : List String
  keyPath : List String
  keyPathStr : String
  deriving DecidableEq, Repr

/-- Indexing of one rule at the top of `resolveRules`: split the key
segments into `dims.length` scope segments and a non-empty key path, or
fail with the structural error. -/
def indexRule (dims : List String) (r : Rule) : Except String IRule :=
  let scope := r.keySegments.take dims.length
  let keyPath := r.keySegments.drop dims.length
  if scope.length ≠ dims.length ∨ keyPath.length = 0 then
    .error (r.filePath ++ ":" ++ toString r.line ++ ": Key must have "
      ++ toString dims.length
      ++ " scope segments + at least one key segment: " ++ r.keyRaw)
  else
    .ok ⟨r, scope, keyPath, String.intercalate "." keyPath⟩

/-- The indexing loop (throws at the first malformed rule). -/
def indexRules (dims : List String) (rules : List Rule) : Except String (List IRule) :=
  rules.mapM (indexRule dims)

/-- `matches(ruleScope, ctxScope)`: positionwise, a scope token matches
when it is `*` or equals the context value exactly.  Both lists always
have length `dims.length` at the call site. -/
def scopeMatches : List String → List String → Bool
  | [], _ => true
  | r :: rs, c :: cs => (r = "*" || r = c) && scopeMatches rs cs
  | _ :: _, [] => false

/-- `specificity(ruleScope)`: number of non-`*` scope tokens. -/
def specificity (scope : List String) : Nat :=
  scope.countP (fun seg => seg ≠ "*")

/-- Deferred operators (`+=`, `-=`) are postponed past primary rules. -/
def isPost (op : Op) : Bool := op = .append || op = .remove

/-- `candidatesByKey` insertion: push `r` onto the entry for `key`,
creating the entry at the end on first occurrence (JS `Map` order). -/
def addCand (m : List (String × List IRule)) (key : String) (r : IRule) :
    List (String × List IRule) :=
  match m with
  | [] => [(key, [r])]
  | (k, l) :: rest =>
      if k = key then (k, l ++ [r]) :: rest else (k, l) :: addCand rest key r

/-- The partition loop of `resolveRules`: walk the indexed rules in
order, keep only those matching the context scope, and split them into
primary candidates grouped by key-path string and the deferred list. -/
def partitionRules (indexed : List IRule) (ctxScope : List String) :
    List (String × List IRule) × List IRule :=
  indexed.foldl
    (fun acc r =>
      if scopeMatches r.scope ctxScope then
        if isPost r.op then (acc.1, acc.2 ++ [r])
        else (addCand acc.1 r.keyPathStr r, acc.2)
      else acc)
    ([], [])

/-- The winner-selection fold of `resolveRules`: carry the current
winner and its (best) specificity; a strictly greater specificity
replaces both, an equal one replaces the winner. -/
def selectWinner (w : IRule) (best : Nat) : List IRule → IRule × Nat
  | [] => (w, best)
  | c :: cs =>
      let s := specificity c.scope
      if best < s then selectWinner c s cs
      else if s = best then selectWinner c best cs
      else selectWinner w best cs

/-- The winner for a candidate list (`cand[0]` seeds the fold). -/
def winnerFor (cand : List IRule) : Option IRule :=
  match cand with
  | [] => none
  | c :: cs => some (selectWinner c (specificity c.scope) cs).1

/-- The provenance record built by `packTrace` (the `spec` field is the
source's `specificity`; `source` is the composed location string). -/
structure TraceEntry where
  op : Op
  scope : List String
  spec : Nat
  filePath : String
  line : Nat
  col : Nat
  keyRaw : String
  source : String
  deriving DecidableEq, Repr

def packTrace (r : IRule) (spec : Nat) : TraceEntry :=
  ⟨r.op, r.scope, spec, r.filePath, r.line, r.col, r.keyRaw,
   r.filePath ++ ":" ++ toString r.line ++ ":" ++ toString r.col⟩

/-- Resolver output state: the tree under construction (fields of the
root object) and the trace map. -/
structure ROut where
  out : List (String × Value)
  trace : List (String × TraceEntry)
  deriving DecidableEq, Repr

/-- Application of the winning primary rule for one key of
`candidatesByKey` (the body of the first `for` loop over entries). -/
def applyPrimaryOne (st : ROut) (key : String) (cand : List IRule) : ROut :=
  match cand with
  | [] => st
  | c :: cs =>
      let wb := selectWinner c (specificity c.scope) cs
      let winner := wb.1
      let best := wb.2
      let existing := getDeep (.obj st.out) winner.keyPath
      match winner.op with
      | .ifMissing =>
          if existing = none then
            ⟨setDeep st.out winner.keyPath (clone winner.value),
             jsMapSet st.trace key (packTrace winner best)⟩
          else st
      | .merge =>
          let newVal :=
            match existing with
            | none => clone winner.value
            | some ex =>
                if isPlainObject ex && isPlainObject winner.value then deepMerge ex winner.value
                else clone winner.value
          ⟨setDeep st.out winner.keyPath newVal,
           jsMapSet st.trace key (packTrace winner best)⟩
      | _ =>
          ⟨setDeep st.out winner.keyPath (clone winner.value),
           jsMapSet st.trace key (packTrace winner best)⟩

/-- Stable insertion for the deferred-rule sort (JS `Array.prototype.sort`
with comparator `specificity(a) - specificity(b)` is stable): insert
after every element of smaller or equal specificity. -/
def insertPost (x : IRule) : List IRule → List IRule
  | [] => [x]
  | y :: ys =>
      if specificity x.scope < specificity y.scope then x :: y :: ys
      else y :: insertPost x ys

/-- `postOps.sort((a, b) => specificity(a.scope) - specificity(b.scope))`:
ascending by specificity, original order preserved on ties. -/
def sortPost (l : List IRule) : List IRule :=
  l.foldl (fun acc x => insertPost x acc) []

/-- Application of one deferred rule (the second `for` loop). -/
def applyPostOne (st : ROut) (r : IRule) : ROut :=
  let key := r.keyPathStr
  let best := specificity r.scope
  let existing := getDeep (.obj st.out) r.keyPath
  let val := clone r.value
  match r.op with
  | .append =>
      let add := match val with | .arr xs => xs | v => [v]
      let newArr :=
        match existing with
        | none => add
        | some (.arr xs) => xs ++ add
        | some ex => [ex] ++ add
      ⟨setDeep st.out r.keyPath (.arr newArr), jsMapSet st.trace key (packTrace r best)⟩
  | .remove =>
      let items := match val with | .arr xs => xs | v => [v]
      match existing with
      | some (.arr xs) =>
          ⟨setDeep st.out r.keyPath (.arr (xs.filter (fun x => !(items.any (sameValueZero x))))),
           jsMapSet st.trace key (packTrace r best)⟩
      | _ => st
  | _ => st

/-- `resolveRules({ rules, dims, ctx, ... })`: index and validate the
rules, partition the matching ones, apply the primary winner per key in
`candidatesByKey` order, apply the deferred rules in ascending
specificity, then interpolate the whole tree.  Returns the resolved
tree, the trace map and the interpolation warnings (the source then
attaches the accessor methods, which are JS API plumbing outside the
value model). -/
def resolveRules (rules : List Rule) (dims : List String) (icfg : InterpCtx) :
    Except String (Value × List (String × TraceEntry) × List Warning) := do
  let indexed ← indexRules dims rules
  let ctxScope := dims.map (fun d => (icfg.ctx d).getD "")
  let parts := partitionRules indexed ctxScope
  let st1 := parts.1.foldl (fun st kc => applyPrimaryOne st kc.1 kc.2) ⟨[], []⟩
  let st2 := (sortPost parts.2).foldl applyPostOne st1
  let fin := applyInterpolationDeep icfg (.obj st2.out)
  pure (fin.1, st2.trace, fin.2)

/-- Convenience accessor for stating concrete resolutions: the value at
`path` in the resolved tree, or `none` when resolution failed. -/
def resolveValueAt (rules : List Rule) (dims : List String) (icfg : InterpCtx)
    (path : List String) : Option Value :=
  match resolveRules rules dims icfg with
  | .ok r => getDeep r.1 path
  | .error _ => none

/-! ## Embedding of `src/secrets.js` -/

/-- One match attempt of `RX_SECRET = /\$\{([A-Z][A-Z0-9_]*):([^}]+)\}/`
at the head of the list: `${`, an uppercase identifier, `:`, one or more
non-`}` characters, `}`.  Both greedy runs are exact (their classes
exclude the required follower), so no backtracking arises.  Returns the
provider, the raw key and the remainder. -/
def matchSecretAt : List Char → Option (String × String × List Char)
  | c1 :: c2 :: tl =>
      if c1 = '$' ∧ c2 = '{' then
        match tl with
        | [] => none
        | c :: tl1 =>
            if isUpperAZ c then
              let provTail := tl1.takeWhile isProvChar
              match tl1.drop provTail.length with
              | ':' :: tl2 =>
                  let key := tl2.takeWhile (fun c2 => !(c2 == '}'))
                  if key.isEmpty then none
                  else if (tl2.drop key.length).head? = some '}' then
                    some (String.mk (c :: provTail), String.mk key, (tl2.drop key.length).tail)
                  else none
              | _ => none
            else none
      else none
  | _ => none

theorem matchSecretAt_length_lt {l : List Char} {p k : String} {rest : List Char}
    (h : matchSecretAt l = some (p, k, rest)) : rest.length < l.length := by
  unfold matchSecretAt at h
  split at h
  case h_2 => simp at h
  case h_1 c1 c2 tl =>
    split at h
    case isFalse => simp at h
    case isTrue =>
      split at h
      case h_1 => simp at h
      case h_2 c tl1 =>
        split at h
        case isFalse => simp at h
        case isTrue =>
          simp only [] at h
          split at h
          case h_2 => simp at h
          case h_1 tl2 hdrop =>
            have hlen1 : tl2.length ≤ tl1.length := by
              have h1 : (tl1.drop (tl1.takeWhile isProvChar).length).length ≤ tl1.length := by
                simpa using List.length_drop_le _ tl1
              rw [hdrop] at h1
              simp only [List.length_cons] at h1
              omega
            split at h
            · simp at h
            · split at h
              · obtain ⟨h1, h2, h3⟩ : p = _ ∧ k = _ ∧ (tl2.drop _).tail = rest := by
                  simpa [eq_comm] using h
                have hne : (tl2.drop (tl2.takeWhile (fun c2 => !(c2 == '}'))).length).length ≠ 0 := by
                  intro h0
                  rename_i hhd
                  rw [List.length_eq_zero] at h0
                  simp [h0] at hhd
                have hdl : (tl2.drop (tl2.takeWhile (fun c2 => !(c2 == '}'))).length).length
                    ≤ tl2.length := by
                  simpa using List.length_drop_le _ tl2
                have htl : rest.length
                    = (tl2.drop (tl2.takeWhile (fun c2 => !(c2 == '}'))).length).length - 1 := by
                  rw [← h3, List.length_tail]
                simp only [List.length_cons]
                omega
              · simp at h

/-- The reserved, non-secret prefixes: `RESERVED = new Set(["ENV", "VAR"])`. -/
def isReserved (provider : String) : Bool := provider == "ENV" || provider == "VAR"

/-- A collected secret reference: full key (`PROVIDER:trimmedKey`),
provider, trimmed key. -/
abbrev SecretRef := String × String × String

/-- One `refs.set` step of `collectSecretRefs`: deduplicate by full key,
first occurrence wins (and fixes the order). -/
def addRef (refs : List SecretRef) (provider key : String) : List SecretRef :=
  let fullKey := provider ++ ":" ++ jsTrim key
  if refs.any (fun e => e.1 == fullKey) then refs
  else refs ++ [(fullKey, provider, jsTrim key)]

/-- The `RX_SECRET.exec` loop of `collectSecretRefs` over one string. -/
def collectRefsStr (refs : List SecretRef) : Nat → List Char → List SecretRef
  | _, [] => refs
  | 0, _ => refs
  | fuel + 1, c :: cs =>
      match matchSecretAt (c :: cs) with
      | some (provider, key, rest) =>
          if isReserved provider then collectRefsStr refs fuel rest
          else collectRefsStr (addRef refs provider key) fuel rest
      | none => collectRefsStr refs fuel cs

mutual

/-- `collectSecretRefs(value, refs)`: scan every string leaf for
`${PROVIDER:key}` spans, skipping the reserved `ENV`/`VAR` prefixes,
deduplicating by `PROVIDER:key` (key trimmed). -/
def collectSecretRefs (refs : List SecretRef) : Value → List SecretRef
  | .str s => collectRefsStr refs s.toList.length s.toList
  | .arr xs => collectRefsList refs xs
  | .obj fs => collectRefsFields refs fs
  | _ => refs

def collectRefsList (refs : List SecretRef) : List Value → List SecretRef
  | [] => refs
  | v :: vs => collectRefsList (collectSecretRefs refs v) vs

def collectRefsFields (refs : List SecretRef) : List (String × Value) → List SecretRef
  | [] => refs
  | (_, v) :: fs => collectRefsFields (collectSecretRefs refs v) fs

end

/-- The `s.replace(RX_SECRET, cb)` scan of `replaceSecrets` on one
string: reserved prefixes keep the span text, anything else becomes
`resolved.get(fullKey) ?? ""`. -/
def replaceSecretsStr (resolved : List (String × String)) : Nat → List Char → List Char
  | _, [] => []
  | 0, l => l
  | fuel + 1, c :: cs =>
      match matchSecretAt (c :: cs) with
      | some (provider, key, rest) =>
          if isReserved provider then
            ('$' :: '{' :: (provider.toList ++ ':' :: key.toList ++ ['}']))
              ++ replaceSecretsStr resolved fuel rest
          else
            let fullKey := provider ++ ":" ++ jsTrim key
            ((jsMapGet resolved fullKey).getD "").toList ++ replaceSecretsStr resolved fuel rest
      | none => c :: replaceSecretsStr resolved fuel cs

mutual

/-- `replaceSecrets(value, resolved)`: rewrite every string leaf. -/
def replaceSecrets (resolved : List (String × String)) : Value → Value
  | .str s => .str (String.mk (replaceSecretsStr resolved s.toList.length s.toList))
  | .arr xs => .arr (replaceSecretsList resolved xs)
  | .obj fs => .obj (replaceSecretsFields resolved fs)
  | v => v

def replaceSecretsList (resolved : List (String × String)) : List Value → List Value
  | [] => []
  | v :: vs => replaceSecrets resolved v :: replaceSecretsList resolved vs

def replaceSecretsFields (resolved : List (String × String)) :
    List (String × Value) → List (String × Value)
  | [] => []
  | (k, v) :: fs => (k, replaceSecrets resolved v) :: replaceSecretsFields resolved fs

end

/-- `globToRegex` + anchored `RegExp.test`: `*` matches any run of
characters, every other character is escaped and matches literally. -/
def globMatch : List Char → List Char → Bool
  | [], [] => true
  | [], _ :: _ => false
  | '*' :: ps, s =>
      globMatch ps s ||
        (match s with
         | [] => false
         | _ :: s' => globMatch ('*' :: ps) s')
  | p :: ps, c :: s => p == c && globMatch ps s
  | _ :: _, [] => false
  termination_by p s => (s.length, p.length)

/-- Split on a separator character (JS `String.split(":")`). -/
def splitOnChar (sep : Char) (l : List Char) : List (List Char) :=
  match l with
  | [] => [[]]
  | c :: cs =>
      let rest := splitOnChar sep cs
      if c == sep then [] :: rest
      else
        match rest with
        | r :: rs => (c :: r) :: rs
        | [] => [[c]]

/-- `isAllowed(fullKey, allowedSecrets)` from `src/secrets.js`: `null`
allows everything; otherwise exact match, anchored glob match on the
full key, or — for patterns without a colon — anchored glob match on
`fullKey.split(":")[1]`. -/
def isAllowed (fullKey : String) (allowedSecrets : Option (List String)) : Bool :=
  match allowedSecrets with
  | none => true
  | some pats =>
      pats.any (fun pattern =>
        pattern == fullKey
        || globMatch pattern.toList fullKey.toList
        || (!(pattern.toList.contains ':')
            && globMatch pattern.toList
                 (((splitOnChar ':' fullKey.toList).getD 1 []))))

/-! ### The secret cache (`SecretCache`)

`Date.now()` is external state: the model passes the current instant
explicitly to `get` and `set`. -/

structure CacheEntry where
  value : String
  expiresAt : Nat
  deriving DecidableEq, Repr

/-- `new SecretCache(maxSize)`: a JS `Map` (insertion-ordered) plus the
capacity bound. -/
structure SecretCache where
  maxSize : Nat
  cache : List (String × CacheEntry)
  deriving DecidableEq, Repr

/-- `cache.get(key)` at instant `now`: a hit past its expiry is deleted
lazily; a live hit is deleted and re-inserted at the end ("move to end
for LRU behavior" in the source).  Returns the value (if any) and the
updated cache. -/
def SecretCache.get (c : SecretCache) (key : String) (now : Nat) :
    Option String × SecretCache :=
  match jsMapGet c.cache key with
  | none => (none, c)
  | some e =>
      if e.expiresAt < now then (none, ⟨c.maxSize, jsMapDelete c.cache key⟩)
      else (some e.value, ⟨c.maxSize, jsMapDelete c.cache key ++ [(key, e)]⟩)

/-- `cache.set(key, value, ttl)` at instant `now`: when the map is at
capacity the first entry in map order is deleted (on an empty map with
`maxSize = 0` the JS `delete(undefined)` is a no-op), then the entry is
stored with `expires = now + ttl`. -/
def SecretCache.set (c : SecretCache) (key value : String) (ttl now : Nat) : SecretCache :=
  let base :=
    if c.maxSize ≤ c.cache.length then
      match c.cache with
      | [] => c.cache
      | (k, _) :: _ => jsMapDelete c.cache k
    else c.cache
  ⟨c.maxSize, jsMapSet base key ⟨value, now + ttl⟩⟩

/-- `cache.invalidate(pattern?)`: clear everything, or the keys
matching the glob pattern. -/
def SecretCache.invalidate (c : SecretCache) (pattern : Option String) : SecretCache :=
  match pattern with
  | none => ⟨c.maxSize, []⟩
  | some p => ⟨c.maxSize, c.cache.filter (fun kv => !(globMatch p.toList kv.1.toList))⟩

/-- The keys currently in the cache, in map order. -/
def SecretCache.keyList (c : SecretCache) : List String := c.cache.map Prod.fst

/-! ### `applySecretsDeep` -/

/-- A JS error as classified by the fetch `catch` handler. -/
structure JsError where
  code : Option String
  name : Option String
  message : String
  deriving DecidableEq, Repr

/-- The settled outcome of one `provider.fetch(key)` promise.  A
resolved `undefined`/`null` is `ok none` (the source coerces it with
`?? ""`). -/
inductive FetchResult where
  | ok (val : Option String)
  | err (e : JsError)

/-- The two ways `applySecretsDeep` can reject under
`onNotFound: "error"`: the wrapped "COLONY: Secret not found" error, or
the provider's own error rethrown. -/
inductive SecretsError where
  | notFound (fullKey : String)
  | fetchFailed (e : JsError)
  deriving DecidableEq, Repr

inductive OnNotFound where
  | empty
  | warn
  | error
  deriving DecidableEq, Repr

/-- Substring test (`String.prototype.includes`). -/
def listContainsSub (sub : List Char) : List Char → Bool
  | [] => sub.isEmpty
  | c :: cs => sub.isPrefixOf (c :: cs) || listContainsSub sub cs

/-- The "not found" classification of a fetch failure:
`err.code === "NOT_FOUND" || err.name === "ResourceNotFoundException"
|| err.message?.includes("not found")`. -/
def isNotFoundErr (e : JsError) : Bool :=
  e.code == some "NOT_FOUND" || e.name == some "ResourceNotFoundException"
    || listContainsSub "not found".toList e.message.toList

/-- The mutable state accumulated over the reference loop of
`applySecretsDeep`. -/
structure SecretsState where
  resolved : List (String × String)
  warnings : List Warning
  cache : Option SecretCache
  deriving DecidableEq, Repr

/-- Processing of one collected reference in `applySecretsDeep`:
allow-list check, cache lookup, provider lookup, fetch and its
error-policy handling.  The source fetches concurrently and awaits
`Promise.all`; the per-reference effects (resolved value, warning,
cache write) are independent per full key, so the model processes the
references sequentially in collection order, which fixes one of the
admissible warning orders.  `Promise.all` rejects with the first
settled rejection; the model aborts at the first erroring reference. -/
def processRef (registry : String → Option (String → FetchResult))
    (allowedSecrets : Option (List String)) (cacheTtl : Nat) (onNotFound : OnNotFound)
    (now : Nat) (st : SecretsState) (ref : SecretRef) :
    Except SecretsError SecretsState :=
  let fullKey := ref.1
  let provider := ref.2.1
  let key := ref.2.2
  if !(isAllowed fullKey allowedSecrets) then
    .ok ⟨jsMapSet st.resolved fullKey "", st.warnings ++ [.blockedSecret provider key], st.cache⟩
  else
    let hit : Option String × Option SecretCache :=
      match st.cache with
      | some c =>
          let r := c.get fullKey now
          (r.1, some r.2)
      | none => (none, none)
    match hit with
    | (some v, c1) => .ok ⟨jsMapSet st.resolved fullKey v, st.warnings, c1⟩
    | (none, c1) =>
        match registry provider with
        | none =>
            .ok ⟨jsMapSet st.resolved fullKey "",
                 st.warnings ++ [.unknownProvider provider key], c1⟩
        | some fetch =>
            match fetch key with
            | .ok v =>
                let strVal := v.getD ""
                let c2 := c1.map (fun c => c.set fullKey strVal cacheTtl now)
                .ok ⟨jsMapSet st.resolved fullKey strVal, st.warnings, c2⟩
            | .err e =>
                if isNotFoundErr e then
                  if onNotFound = .error then .error (.notFound fullKey)
                  else
                    .ok ⟨jsMapSet st.resolved fullKey "",
                         st.warnings ++ [.secretNotFound provider key], c1⟩
                else
                  if onNotFound = .error then .error (.fetchFailed e)
                  else
                    .ok ⟨jsMapSet st.resolved fullKey "",
                         st.warnings ++ [.secretFetchError provider key], c1⟩

/-- `applySecretsDeep(value, options)`: collect the references (when
there are none the value is returned as-is), resolve each one, then
rewrite the tree.  `registry` is the merge of the global registry and
the per-call providers (keyed by upper-cased prefix), which the source
computes first; the ambient global registry is external state, so the
model takes the merged registry as a parameter. -/
def applySecretsDeep (value : Value) (registry : String → Option (String → FetchResult))
    (allowedSecrets : Option (List String)) (cache0 : Option SecretCache)
    (cacheTtl : Nat) (onNotFound : OnNotFound) (now : Nat) (warnings0 : List Warning) :
    Except SecretsError (Value × List Warning × Option SecretCache) :=
  let refs := collectSecretRefs [] value
  if refs.isEmpty then .ok (value, warnings0, cache0)
  else
    match refs.foldlM (processRef registry allowedSecrets cacheTtl onNotFound now)
        ⟨[], warnings0, cache0⟩ with
    | .error e => .error e
    | .ok st => .ok (replaceSecrets st.resolved value, st.warnings, st.cache)

/-! ## Embedding of `src/parser.js`

Parse errors are modelled structurally: the 1-based source line and the
core message.  The source additionally renders a context snippet into
the thrown `Error` via `formatParseError`; that rendering is derived
data and not part of the model. -/

structure PErr where
  line : Nat
  msg : String
  deriving DecidableEq, Repr

/-- JS `s.endsWith(suf)` (kernel-evaluable). -/
def strEndsWith (s suf : String) : Bool :=
  suf.toList.reverse.isPrefixOf s.toList.reverse

/-- `text.split(/\r?\n/)`: split on `\n` or `\r\n`; a lone `\r` is not a
separator. -/
def splitLinesJS : List Char → List (List Char)
  | [] => [[]]
  | '\r' :: '\n' :: rest => [] :: splitLinesJS rest
  | '\n' :: rest => [] :: splitLinesJS rest
  | c :: rest =>
      match splitLinesJS rest with
      | l :: ls => (c :: l) :: ls
      | [] => [[c]]

/-- The per-character loop of `stripBlockComments` on one line: carry
`(inComment, commentDepth)` across lines, recognise nested `/*` and
`*/`, and copy everything outside comments. -/
def stripLineGo : Bool → Nat → List Char → List Char × Bool × Nat
  | false, d, '/' :: '*' :: rest => stripLineGo true 1 rest
  | false, d, c :: rest =>
      let r := stripLineGo false d rest
      (c :: r.1, r.2)
  | inC, d, [] => ([], inC, d)
  | true, d, '/' :: '*' :: rest => stripLineGo true (d + 1) rest
  | true, d, '*' :: '/' :: rest =>
      if d = 1 then stripLineGo false 0 rest else stripLineGo true (d - 1) rest
  | true, d, _ :: rest => stripLineGo true d rest

/-- `stripBlockComments`, linewise.  One cleaned line is emitted per
input line, so the source's `lineMap` is the identity and cleaned line
numbers equal original line numbers. -/
def stripLines : Bool → Nat → List (List Char) → List (List Char)
  | _, _, [] => []
  | inC, d, l :: ls =>
      let r := stripLineGo inC d l
      r.1 :: stripLines r.2.1 r.2.2 ls

/-- `parseKeyPath(keyRaw)`: split on unescaped dots, `\.` becomes a
literal dot, segments are trimmed, empty segments dropped. -/
def parseKeyPathGo (current : List Char) (acc : List String) : List Char → List String
  | [] =>
      if jsTrim (String.mk current) ≠ "" then acc ++ [jsTrim (String.mk current)] else acc
  | '\\' :: '.' :: rest => parseKeyPathGo (current ++ ['.']) acc rest
  | '.' :: rest =>
      let acc' :=
        if jsTrim (String.mk current) ≠ "" then acc ++ [jsTrim (String.mk current)] else acc
      parseKeyPathGo [] acc' rest
  | c :: rest => parseKeyPathGo (current ++ [c]) acc rest

def parseKeyPath (keyRaw : String) : List String :=
  parseKeyPathGo [] [] keyRaw.toList

/-- The operator alternation `(\:=|\|\=|\+\=|\-\=|\=)` at the head of
the list.  The five alternatives have distinct first characters, so at
most one can match at a given position; the regex's ordering (so that
`=` does not shadow the two-character operators) collapses to this
first-character dispatch. -/
def opAt : List Char → Option (Op × List Char)
  | ':' :: '=' :: rest => some (.ifMissing, rest)
  | '|' :: '=' :: rest => some (.merge, rest)
  | '+' :: '=' :: rest => some (.append, rest)
  | '-' :: '=' :: rest => some (.remove, rest)
  | '=' :: rest => some (.assign, rest)
  | _ => none

/-- The shared `^(.+?)\s*(op)\s* ...` scan of `RX_RULE` and the heredoc
start regex: try key prefixes of increasing length (lazy `(.+?)`, which
cannot contain a newline), after each skip the whitespace run (the
operators start with non-whitespace characters, so only the maximal run
can precede a match) and try the operator and then the tail pattern;
on tail failure the key keeps growing (regex backtracking). -/
def scanStmt {β : Type} (tailFn : List Char → Option β) (key : List Char) :
    List Char → Option (List Char × Op × β)
  | [] => none
  | c :: cs =>
      if c = '\n' then none
      else
        let key' := key ++ [c]
        match opAt (cs.dropWhile isWSChar) with
        | some (op, after) =>
            match tailFn after with
            | some b => some (key', op, b)
            | none => scanStmt tailFn key' cs
        | none => scanStmt tailFn key' cs

/-- The value tail `\s*([\s\S]+)\s*;$` of `RX_RULE`: it matches exactly
when the remainder ends in `;` with at least one more character before
it, and since the rule's value is `.trim()`ed right after capture, the
captured group collapses to the trim of everything before the final
`;`. -/
def ruleTail (after : List Char) : Option String :=
  match after.reverse with
  | ';' :: revBody =>
      if revBody.isEmpty then none else some (jsTrim (String.mk revBody.reverse))
  | _ => none

/-- The heredoc tail `\s*<<([A-Z_][A-Z0-9_]*)$`: whitespace, `<<`, then
a delimiter (uppercase/digit/underscore, starting with a letter or
underscore) running to the end of the line. -/
def heredocTail (after : List Char) : Option String :=
  match after.dropWhile isWSChar with
  | '<' :: '<' :: d :: ds =>
      if (isUpperAZ d || d = '_') && ds.all isProvChar then some (String.mk (d :: ds))
      else none
  | _ => none

/-- `stripQuotes(s)`: remove one matching pair of surrounding quotes. -/
def stripQuotes (s : String) : String :=
  if (strStartsWith s "\"" && strEndsWith s "\"")
      || (strStartsWith s "'" && strEndsWith s "'") then
    String.mk (s.toList.drop 1).dropLast
  else s

/-- `/^@name\s+([^;]+);/` (the `@dims`, `@require` and `@envDefaults`
shape): anchored prefix match, at least one whitespace character, then
a non-empty capture running to the first `;`.  The greedy `\s+` gives
back at most one character (to `[^;]+` when everything before `;` is
whitespace), which `min m (j - 1)` reproduces. -/
def matchDirectiveArg (nm : String) (raw : String) : Option String :=
  let l := raw.toList
  if nm.toList.isPrefixOf l then
    let rest := l.drop nm.toList.length
    let m := (rest.takeWhile isWSChar).length
    let j := (rest.takeWhile (fun ch => !(ch == ';'))).length
    if m = 0 then none
    else if (rest.drop j).head? ≠ some ';' then none
    else
      let i := min m (j - 1)
      if i = 0 then none
      else some (String.mk ((rest.drop i).take (j - i)))
  else none

/-- `/^@include\s+(.+);/`: because `.` is `[^\n]`, the greedy capture
runs to the last `;` on the line where the non-whitespace argument
starts. -/
def matchIncludeArg (raw : String) : Option String :=
  let l := raw.toList
  if ("@include".toList).isPrefixOf l then
    let rest := l.drop 8
    if (rest.takeWhile isWSChar).isEmpty then none
    else
      let line1 := (rest.dropWhile isWSChar).takeWhile (fun ch => !(ch == '\n'))
      let upToLastSemi := (line1.reverse.dropWhile (fun ch => !(ch == ';'))).reverse
      match upToLastSemi.reverse with
      | ';' :: revBody => if revBody.isEmpty then none else some (String.mk revBody.reverse)
      | _ => none
  else none

/-- `split(",").map(s => s.trim()).filter(Boolean)` -/
def splitCommaTrimFilter (s : String) : List String :=
  ((splitOnChar ',' s.toList).map (fun l => jsTrim (String.mk l))).filter (fun x => x ≠ "")

/-- The `@envDefaults` entry loop: each part must contain `=`; key and
value are trimmed and the value unquoted. -/
def parseEnvDefaultsParts (origLine : Nat) :
    List (String × String) → List String → Except PErr (List (String × String))
  | acc, [] => .ok acc
  | acc, p :: rest =>
      let pre := p.toList.takeWhile (fun c => !(c == '='))
      if pre.length = p.toList.length then
        .error ⟨origLine, "Bad @envDefaults entry: " ++ p⟩
      else
        parseEnvDefaultsParts origLine
          (jsMapSet acc (jsTrim (String.mk pre))
            (stripQuotes (jsTrim (String.mk (p.toList.drop (pre.length + 1)))))) rest

/-- `/^-?\d+(\.\d+)?$/` plus `Number(r)` (exact on these literals up to
the double-rounding noted at `Value`). -/
def parseNumLit (s : String) : Option Rat :=
  let l := s.toList
  let sgn : Rat := if l.head? = some '-' then -1 else 1
  let body := if l.head? = some '-' then l.drop 1 else l
  let ds := body.takeWhile Char.isDigit
  if ds.isEmpty then none
  else
    let intPart : Nat := ds.foldl (fun n c => n * 10 + (c.toNat - 48)) 0
    match body.drop ds.length with
    | [] => some (sgn * intPart)
    | '.' :: fs =>
        if fs.isEmpty || !(fs.all Char.isDigit) then none
        else
          let fracNat : Nat := fs.foldl (fun n c => n * 10 + (c.toNat - 48)) 0
          some (sgn * ((intPart : Rat) + (fracNat : Rat) / ((10 : Rat) ^ fs.length)))
    | _ => none

/-- `parseValue(raw, ...)` from `src/parser.js`.  The `JSON5.parse`
calls are delegated to the `json5` oracle parameter: `true`/`false`/
`null` parse to themselves (inlined), and the bracket/quote-delimited
branch consults the oracle, whose failure is the fatal
"Bad JSON5 value" error. -/
def parseValue (json5 : String → Option Value) (raw : String) (line : Nat) :
    Except PErr Value :=
  let r := jsTrim raw
  if r == "true" then .ok (.bool true)
  else if r == "false" then .ok (.bool false)
  else if r == "null" then .ok .null
  else
    match parseNumLit r with
    | some q => .ok (.num q)
    | none =>
        let l := r.toList
        let looksJsonish :=
          match l.head?, l.getLast? with
          | some a, some b =>
              (a == '{' && b == '}') || (a == '[' && b == ']')
                || (a == '"' && b == '"') || (a == '\'' && b == '\'')
          | _, _ => false
        if looksJsonish then
          match json5 r with
          | some v => .ok v
          | none => .error ⟨line, "Bad JSON5 value"⟩
        else .ok (.str r)

/-- The mutable state of the `parseColony` line loop. -/
structure ParseState where
  rules : List Rule
  includes : List String
  reqs : List String
  envDefaults : List (String × String)
  dims : Option (List String)
  buf : String
  bufStart : Nat
  inHeredoc : Bool
  hdDelim : String
  hdContent : String
  hdStartLine : Nat
  hdKey : String
  hdOp : Op
  deriving DecidableEq, Repr

structure ParseOutput where
  dims : Option (List String)
  includes : List String
  reqs : List String
  envDefaults : List (String × String)
  rules : List Rule
  deriving DecidableEq, Repr

/-- The `flush` closure of `parseColony`: directives first (`@dims`,
`@include`, `@require`, `@envDefaults`), then the rule statement. -/
def flushBuf (json5 : String → Option Value) (filePath : String)
    (parseOnlyDirectives : Bool) (st0 : ParseState) : Except PErr ParseState :=
  let raw := jsTrim st0.buf
  let st := { st0 with buf := "" }
  if raw == "" then .ok st
  else
    match matchDirectiveArg "@dims" raw with
    | some arg => .ok { st with dims := some (splitCommaTrimFilter arg) }
    | none =>
    match matchIncludeArg raw with
    | some arg => .ok { st with includes := st.includes ++ [stripQuotes (jsTrim arg)] }
    | none =>
    match matchDirectiveArg "@require" raw with
    | some arg => .ok { st with reqs := st.reqs ++ splitCommaTrimFilter arg }
    | none =>
    match matchDirectiveArg "@envDefaults" raw with
    | some arg =>
        match parseEnvDefaultsParts st.bufStart st.envDefaults (splitCommaTrimFilter arg) with
        | .error e => .error e
        | .ok ed => .ok { st with envDefaults := ed }
    | none =>
    if parseOnlyDirectives then .ok st
    else
      match scanStmt ruleTail [] raw.toList with
      | none => .error ⟨st.bufStart, "Invalid statement"⟩
      | some (keyChars, op, valueRaw) =>
          let keyRaw := jsTrim (String.mk keyChars)
          let keySegments := parseKeyPath keyRaw
          if keySegments.isEmpty then .error ⟨st.bufStart, "Empty key"⟩
          else
            match parseValue json5 valueRaw st.bufStart with
            | .error e => .error e
            | .ok v =>
                .ok { st with
                  rules := st.rules ++ [⟨filePath, st.bufStart, 0, keyRaw, keySegments, op, v⟩] }

/-- One iteration of the `parseColony` line loop (on a cleaned line;
`lineNo` is 1-based and, the line map being the identity, also the
original line number). -/
def parseStep (json5 : String → Option Value) (filePath : String)
    (parseOnlyDirectives : Bool) (st : ParseState) (lineNo : Nat) (line : List Char) :
    Except PErr ParseState :=
  let trimmed := jsTrim (String.mk line)
  if st.inHeredoc then
    if trimmed == st.hdDelim then
      let keySegments := parseKeyPath st.hdKey
      if keySegments.isEmpty then .error ⟨st.hdStartLine, "Empty key in heredoc"⟩
      else
        .ok { st with
          rules := st.rules
            ++ [⟨filePath, st.hdStartLine, 0, st.hdKey, keySegments, st.hdOp, .str st.hdContent⟩],
          inHeredoc := false, hdContent := "" }
    else
      .ok { st with
        hdContent := st.hdContent ++ (if st.hdContent == "" then "" else "\n") ++ String.mk line }
  else if trimmed == "" || strStartsWith trimmed "#" || strStartsWith trimmed "//" then
    .ok st
  else
    match scanStmt heredocTail [] trimmed.toList with
    | some (keyChars, op, delim) =>
        .ok { st with inHeredoc := true, hdKey := jsTrim (String.mk keyChars), hdOp := op,
                      hdDelim := delim, hdStartLine := lineNo, hdContent := "" }
    | none =>
        let st1 := if st.buf == "" then { st with bufStart := lineNo } else st
        let st2 :=
          { st1 with buf := st1.buf ++ (if st1.buf == "" then "" else "\n") ++ String.mk line }
        if strEndsWith trimmed ";" then flushBuf json5 filePath parseOnlyDirectives st2
        else .ok st2

/-- The line loop, numbering lines from `n`. -/
def runLines (json5 : String → Option Value) (filePath : String)
    (parseOnlyDirectives : Bool) : ParseState → Nat → List (List Char) →
    Except PErr ParseState
  | st, _, [] => .ok st
  | st, n, l :: ls =>
      match parseStep json5 filePath parseOnlyDirectives st n l with
      | .error e => .error e
      | .ok st' => runLines json5 filePath parseOnlyDirectives st' (n + 1) ls

/-- The post-loop checks of `parseColony`: an open heredoc or a
non-empty buffer is a fatal error naming the start line. -/
def parseFinish (st : ParseState) : Except PErr ParseOutput :=
  if st.inHeredoc then
    .error ⟨st.hdStartLine, "Unterminated heredoc (missing " ++ st.hdDelim ++ ")"⟩
  else if jsTrim st.buf ≠ "" then
    .error ⟨st.bufStart, "Unterminated statement (missing ;)"⟩
  else .ok ⟨st.dims, st.includes, st.reqs, st.envDefaults, st.rules⟩

/-- The initial loop state (`heredocOp` starts as the empty JS string,
which is never read before being set; the model seeds it with `=`). -/
def initParseState : ParseState :=
  ⟨[], [], [], [], none, "", 0, false, "", "", 0, "", .assign⟩

/-- `parseColony(text, { filePath, parseOnlyDirectives })`: strip block
comments (linewise, preserving line numbers), run the line loop from
line 1, then the final checks. -/
def parseColony (json5 : String → Option Value) (text : String) (filePath : String)
    (parseOnlyDirectives : Bool) : Except PErr ParseOutput :=
  let cleaned := stripLines false 0 (splitLinesJS text.toList)
  match runLines json5 filePath parseOnlyDirectives initParseState 1 cleaned with
  | .error e => .error e
  | .ok st => parseFinish st

/-! ## Decidable equality for `Except` results (for concrete evaluation) -/

instance {ε α : Type} [DecidableEq ε] [DecidableEq α] : DecidableEq (Except ε α) := fun a b =>
  match a, b with
  | .ok x, .ok y =>
      if h : x = y then .isTrue (by rw [h]) else .isFalse (by intro hc; cases hc; exact h rfl)
  | .error x, .error y =>
      if h : x = y then .isTrue (by rw [h]) else .isFalse (by intro hc; cases hc; exact h rfl)
  | .ok _, .error _ => .isFalse (by intro hc; cases hc)
  | .error _, .ok _ => .isFalse (by intro hc; cases hc)

/-! ## Claim C2: the spec's specificity example -/

def icfgOf (ctx : String → Option String) : InterpCtx :=
  ⟨ctx, fun _ => none, fun _ => none, none, none⟩

def ctxProdEU : String → Option String :=
  fun d => if d = "env" then some "prod" else if d = "region" then some "eu" else none

def ctxProdUS : String → Option String :=
  fun d => if d = "env" then some "prod" else if d = "region" then some "us" else none

/-- The C2 rule set exactly as stated:
`*.timeout = 1000; prod.*.timeout = 2000; prod.us.timeout = 3000;`. -/
def rulesC2Stated : List Rule :=
  [ ⟨"app.colony", 1, 0, "*.timeout", ["*", "timeout"], .assign, .num 1000⟩,
    ⟨"app.colony", 2, 0, "prod.*.timeout", ["prod", "*", "timeout"], .assign, .num 2000⟩,
    ⟨"app.colony", 3, 0, "prod.us.timeout", ["prod", "us", "timeout"], .assign, .num 3000⟩ ]

/-- The C2 rule set with the first rule's scope widened to the two
declared dimensions (`*.*.timeout`), as the scope-length validation
requires. -/
def rulesC2Fixed : List Rule :=
  [ ⟨"app.colony", 1, 0, "*.*.timeout", ["*", "*", "timeout"], .assign, .num 1000⟩,
    ⟨"app.colony", 2, 0, "prod.*.timeout", ["prod", "*", "timeout"], .assign, .num 2000⟩,
    ⟨"app.colony", 3, 0, "prod.us.timeout", ["prod", "us", "timeout"], .assign, .num 3000⟩ ]

/-- C2 (counterexample): with dimensions `[env, region]` the stated rule
set does not resolve at all — `*.timeout` has one scope token and no key
segment left after the two scope positions, so `resolveRules` aborts
with the structural error instead of succeeding. -/
theorem c2_stated_ruleset_errors :
    resolveRules rulesC2Stated ["env", "region"] (icfgOf ctxProdEU)
      = .error "app.colony:1: Key must have 2 scope segments + at least one key segment: *.timeout"
    ∧ resolveValueAt rulesC2Stated ["env", "region"] (icfgOf ctxProdEU) ["timeout"] = none
    ∧ resolveValueAt rulesC2Stated ["env", "region"] (icfgOf ctxProdUS) ["timeout"] = none := by
  decide

/-- C2 (amended): with the base rule written `*.*.timeout = 1000` (two
scope tokens for the two declared dimensions), resolution succeeds and
yields `timeout = 2000` under `{env: prod, region: eu}` and
`timeout = 3000` under `{env: prod, region: us}`. -/
theorem c2_example_resolves :
    resolveValueAt rulesC2Fixed ["env", "region"] (icfgOf ctxProdEU) ["timeout"]
        = some (.num 2000)
    ∧ resolveValueAt rulesC2Fixed ["env", "region"] (icfgOf ctxProdUS) ["timeout"]
        = some (.num 3000) := by
  decide

/-! ## Claim C3: secret-cache eviction -/

/-- C3 (counterexample): with `maxSize = 2`, insert `a` then `b`, then
perform a successful `get` on `a`, then insert `c`.  The claim says the
`get` does not reset `a`'s position for eviction, so `a` (the
first-inserted key) would be evicted; the code instead moves `a` to the
end of the map on `get`, so `b` is evicted and `a` survives. -/
theorem c3_get_resets_eviction_position :
    ((((⟨2, []⟩ : SecretCache).set "a" "1" 1000 0).set "b" "2" 1000 0).get "a" 0).1 = some "1"
    ∧ (((((⟨2, []⟩ : SecretCache).set "a" "1" 1000 0).set "b" "2" 1000 0).get "a" 0).2.set
        "c" "3" 1000 0).keyList = ["a", "c"]
    ∧ ((((((⟨2, []⟩ : SecretCache).set "a" "1" 1000 0).set "b" "2" 1000 0).get "a" 0).2.set
        "c" "3" 1000 0).get "b" 0).1 = none
    ∧ ((((((⟨2, []⟩ : SecretCache).set "a" "1" 1000 0).set "b" "2" 1000 0).get "a" 0).2.set
        "c" "3" 1000 0).get "a" 0).1 = some "1" := by
  decide

/-- C3 (amended): eviction removes the entry at the front of the map
order.  With no intervening access, inserting three distinct keys into a
`maxSize = 2` cache evicts exactly the first-inserted key; but a
successful `get` moves the accessed entry to the end of the map, so it
does reset that entry's position for eviction purposes (the eviction
policy is LRU with respect to successful reads, not insertion-order
FIFO). -/
theorem c3_cache_eviction (k1 k2 k3 v1 v2 v3 : String) (ttl : Nat)
    (h12 : k1 ≠ k2) (h13 : k1 ≠ k3) (h23 : k2 ≠ k3) :
    ((((⟨2, []⟩ : SecretCache).set k1 v1 ttl 0).set k2 v2 ttl 0).set k3 v3 ttl 0).keyList
        = [k2, k3]
    ∧ (((((⟨2, []⟩ : SecretCache).set k1 v1 ttl 0).set k2 v2 ttl 0).get k1 0).1 = some v1
        ∧ ((((((⟨2, []⟩ : SecretCache).set k1 v1 ttl 0).set k2 v2 ttl 0).get k1 0).2).set
            k3 v3 ttl 0).keyList = [k1, k3]) := by
  refine ⟨?_, ?_, ?_⟩ <;>
    simp [SecretCache.set, SecretCache.get, SecretCache.keyList, jsMapSet, jsMapGet,
      jsMapDelete, h12, h13, h23, Ne.symm h12, Ne.symm h13, Ne.symm h23]

/-- C3 witness. -/
theorem c3_cache_eviction_witness :
    ((((⟨2, []⟩ : SecretCache).set "a" "1" 7 0).set "b" "2" 7 0).set "c" "3" 7 0).keyList
        = ["b", "c"] :=
  (c3_cache_eviction "a" "b" "c" "1" "2" "3" 7 (by decide) (by decide) (by decide)).1

/-! ## Claim C4: the `onNotFound` policy on a not-found fetch failure -/

/-- A provider whose fetch always rejects with a not-found error
(`err.code === "NOT_FOUND"`), as in the repository's own test. -/
def nfFetch : String → FetchResult :=
  fun _ => .err ⟨some "NOT_FOUND", none, "Secret not found"⟩

def nfRegistry : String → Option (String → FetchResult) :=
  fun p => if p = "NF" then some nfFetch else none

def nfTree : Value := .obj [("val", .str "$\x7bNF:k\x7d")]

/-- C4: at the failing input — a registered provider whose fetch fails
with a not-found error — the `warn` and `error` legs behave as the claim
says (warning plus empty string, respectively abort with the wrapped
not-found error), but the `empty` leg also records a `secret_not_found`
warning: the code has no branch distinguishing `empty` from `warn`,
contradicting its own option documentation ("'empty' returns \"\",
'warn' adds warning"). -/
theorem c4_empty_policy_still_warns :
    applySecretsDeep nfTree nfRegistry none none 300000 .empty 0 []
      = .ok (.obj [("val", .str "")], [.secretNotFound "NF" "k"], none)
    ∧ applySecretsDeep nfTree nfRegistry none none 300000 .warn 0 []
      = .ok (.obj [("val", .str "")], [.secretNotFound "NF" "k"], none)
    ∧ applySecretsDeep nfTree nfRegistry none none 300000 .error 0 []
      = .error (.notFound "NF:k") := by
  decide

/-! ## Claim C7: idempotence of substitution -/

/-- An environment source in which `X` is bound to `"$"`. -/
def icfgC7 : InterpCtx :=
  ⟨fun _ => none, fun _ => none, fun k => if k = "X" then some "$" else none, none, none⟩

/-- The tree whose single string leaf is `"${ENV:X}{E}"`. -/
def treeC7 : Value := .str "$\x7bENV:X\x7d\x7bE\x7d"

/-- C7 (counterexample): placeholder substitution is not idempotent on
already-substituted output.  Substituting `"${ENV:X}{E}"` with
`env.X = "$"` yields `"${E}"` — a brand-new placeholder span assembled
from the substituted `"$"` and the following text — and a second run
replaces that span with `""` (with an `unknown_interpolation` warning),
so the second run does not return an identical tree. -/
theorem c7_not_idempotent :
    (applyInterpolationDeep icfgC7 treeC7).1 = .str "$\x7bE\x7d"
    ∧ (applyInterpolationDeep icfgC7 (applyInterpolationDeep icfgC7 treeC7).1).1
        ≠ (applyInterpolationDeep icfgC7 treeC7).1 := by
  decide

/-! ## Claims C8 and C10: deferred rules -/

/-- `Array.isArray` -/
def isArrayV : Value → Bool
  | .arr _ => true
  | _ => false

/-- JS primitives among config values (null, boolean, number, string). -/
def isScalarV : Value → Bool
  | .arr _ => false
  | .obj _ => false
  | _ => true

/-- The `Array.isArray(val) ? val : [val]` coercion used by both
deferred operators. -/
def toItems (v : Value) : List Value :=
  match v with
  | .arr xs => xs
  | w => [w]

theorem applyPostOne_toItems (st : ROut) (r : IRule) :
    applyPostOne st r =
      (let key := r.keyPathStr
       let best := specificity r.scope
       let existing := getDeep (.obj st.out) r.keyPath
       match r.op with
       | .append =>
           let add := toItems (clone r.value)
           let newArr :=
             match existing with
             | none => add
             | some (.arr xs) => xs ++ add
             | some ex => [ex] ++ add
           ⟨setDeep st.out r.keyPath (.arr newArr), jsMapSet st.trace key (packTrace r best)⟩
       | .remove =>
           let items := toItems (clone r.value)
           match existing with
           | some (.arr xs) =>
               ⟨setDeep st.out r.keyPath
                  (.arr (xs.filter (fun x => !(items.any (sameValueZero x))))),
                jsMapSet st.trace key (packTrace r best)⟩
           | _ => st
       | _ => st) := by
  simp only [applyPostOne, toItems]

theorem insertPost_perm (x : IRule) : ∀ l : List IRule, (insertPost x l).Perm (x :: l) := by
  intro l
  induction l with
  | nil => simp [insertPost]
  | cons y ys ih =>
      simp only [insertPost]
      split
      · exact List.Perm.refl _
      · exact ((ih.cons y).trans (List.Perm.swap x y ys)).symm.symm

theorem sortPost_perm_aux :
    ∀ (l acc : List IRule), (l.foldl (fun a x => insertPost x a) acc).Perm (acc ++ l) := by
  intro l
  induction l with
  | nil => intro acc; simp
  | cons x xs ih =>
      intro acc
      have h1 := ih (insertPost x acc)
      have h2 : (insertPost x acc ++ xs).Perm ((x :: acc) ++ xs) :=
        (insertPost_perm x acc).append_right xs
      have h3 : ((x :: acc) ++ xs).Perm (acc ++ x :: xs) :=
        (@List.perm_middle _ x acc xs).symm
      exact (h1.trans h2).trans h3

/-- `sortPost` is a permutation of its input. -/
theorem sortPost_perm (l : List IRule) : (sortPost l).Perm l := by
  simpa using sortPost_perm_aux l []

def specLE (a b : IRule) : Prop := specificity a.scope ≤ specificity b.scope

theorem mem_insertPost {x a : IRule} : ∀ {l : List IRule}, a ∈ insertPost x l → a = x ∨ a ∈ l :=
  fun hm => by
    have := (insertPost_perm x _).mem_iff.mp hm
    simpa using this

theorem insertPost_pairwise (x : IRule) :
    ∀ l : List IRule, l.Pairwise specLE → (insertPost x l).Pairwise specLE := by
  intro l
  induction l with
  | nil => intro _; simp [insertPost, List.Pairwise]
  | cons y ys ih =>
      intro hp
      rw [List.pairwise_cons] at hp
      simp only [insertPost]
      split
      · rename_i hxy
        rw [List.pairwise_cons]
        constructor
        · intro a ha
          rcases List.mem_cons.mp ha with ha | ha
          · subst ha; exact Nat.le_of_lt hxy
          · exact Nat.le_trans (Nat.le_of_lt hxy) (hp.1 a ha)
        · exact List.pairwise_cons.mpr hp
      · rename_i hxy
        rw [List.pairwise_cons]
        refine ⟨?_, ih hp.2⟩
        intro a ha
        rcases mem_insertPost ha with ha | ha
        · subst ha; exact Nat.le_of_not_lt hxy
        · exact hp.1 a ha

theorem sortPost_pairwise_aux :
    ∀ (l acc : List IRule), acc.Pairwise specLE →
      (l.foldl (fun a x => insertPost x a) acc).Pairwise specLE := by
  intro l
  induction l with
  | nil => intro acc h; simpa using h
  | cons x xs ih => intro acc h; exact ih (insertPost x acc) (insertPost_pairwise x acc h)

/-- `sortPost` sorts ascending by specificity. -/
theorem sortPost_pairwise (l : List IRule) : (sortPost l).Pairwise specLE :=
  sortPost_pairwise_aux l [] (by simp)

/-- The C8 example: `*.list = ["a"]; prod.list += "b"; prod.list -= "a";`
with the one dimension `env`. -/
def rulesC8 : List Rule :=
  [ ⟨"app.colony", 1, 0, "*.list", ["*", "list"], .assign, .arr [.str "a"]⟩,
    ⟨"app.colony", 2, 0, "prod.list", ["prod", "list"], .append, .str "b"⟩,
    ⟨"app.colony", 3, 0, "prod.list", ["prod", "list"], .remove, .str "a"⟩ ]

def ctxProd1 : String → Option String := fun d => if d = "env" then some "prod" else none

/-- C8: deferred rules.  (i) `resolveRules` applies the deferred rules
by folding `applyPostOne` over `sortPost` of the matching deferred
list, after the whole primary fold; (ii) `sortPost` is a permutation of
the deferred rules that is ascending in specificity; (iii) `Append` on a
defined non-array existing value coerces it into a one-element sequence
before concatenating; (iv) `Remove` on a value that is not currently a
sequence is a no-op; and (v) the spec's example resolves `list` to
`["b"]` under `{env: prod}`. -/
theorem c8_deferred_rules :
    (∀ (rules : List Rule) (dims : List String) (icfg : InterpCtx) (indexed : List IRule),
      indexRules dims rules = .ok indexed →
      resolveRules rules dims icfg =
        (let parts := partitionRules indexed (dims.map (fun d => (icfg.ctx d).getD ""))
         let st1 := parts.1.foldl (fun st kc => applyPrimaryOne st kc.1 kc.2) ⟨[], []⟩
         let st2 := (sortPost parts.2).foldl applyPostOne st1
         .ok ((applyInterpolationDeep icfg (.obj st2.out)).1, st2.trace,
              (applyInterpolationDeep icfg (.obj st2.out)).2)))
    ∧ (∀ l : List IRule, (sortPost l).Perm l ∧ (sortPost l).Pairwise specLE)
    ∧ (∀ (st : ROut) (r : IRule) (ex : Value), r.op = .append →
        getDeep (.obj st.out) r.keyPath = some ex → isArrayV ex = false →
        (applyPostOne st r).out
          = setDeep st.out r.keyPath (.arr ([ex] ++ toItems (clone r.value))))
    ∧ (∀ (st : ROut) (r : IRule), r.op = .remove →
        (∀ xs : List Value, getDeep (.obj st.out) r.keyPath ≠ some (.arr xs)) →
        applyPostOne st r = st)
    ∧ resolveValueAt rulesC8 ["env"] (icfgOf ctxProd1) ["list"] = some (.arr [.str "b"]) := by
  refine ⟨?_, fun l => ⟨sortPost_perm l, sortPost_pairwise l⟩, ?_, ?_, by decide⟩
  · intro rules dims icfg indexed hidx
    simp only [resolveRules, hidx, Except.bind, bind, pure, Except.pure]
  · intro st r ex hop hget harr
    rw [applyPostOne_toItems]
    simp only [hop, hget]
    cases ex <;> simp_all [isArrayV]
  · intro st r hop hget
    rw [applyPostOne_toItems]
    simp only [hop]

/-- C8 witness. -/
theorem c8_deferred_rules_witness :
    (applyPostOne ⟨[("list", .str "x")], []⟩
        ⟨⟨"f", 1, 0, "prod.list", ["prod", "list"], .append, .str "b"⟩, ["prod"], ["list"], "list"⟩).out
      = setDeep [("list", .str "x")] ["list"]
          (.arr ([.str "x"] ++ toItems (clone (.str "b")))) :=
  c8_deferred_rules.2.2.1
    ⟨[("list", .str "x")], []⟩
    ⟨⟨"f", 1, 0, "prod.list", ["prod", "list"], .append, .str "b"⟩, ["prod"], ["list"], "list"⟩
    (.str "x") rfl (by decide) (by decide)

theorem sameValueZero_iff_of_scalar {x : Value} (h : isScalarV x = true) (y : Value) :
    sameValueZero x y = true ↔ x = y := by
  cases x <;> cases y <;> simp_all [sameValueZero, isScalarV]

theorem sameValueZero_of_nonscalar {x : Value} (h : isScalarV x = false) (y : Value) :
    sameValueZero x y = false := by
  cases x <;> cases y <;> simp_all [sameValueZero, isScalarV]

theorem sameValueZero_obj_right (x : Value) (f : List (String × Value)) :
    sameValueZero x (.obj f) = false := by
  cases x <;> simp [sameValueZero]

/-- C10: `Remove` keeps exactly the elements that are not SameValueZero-
members of the (cloned) removal items.  (i) the applied result filters
the existing sequence by that membership test; (ii) an element that is
not a primitive (an array or a mapping) always passes the filter — the
cloned removal items are fresh references, so reference identity never
holds; (iii) a primitive element is SameValueZero-matched exactly when
it equals one of the removal items; (iv) in particular a `Remove` whose
operand is a mapping filters nothing: the existing sequence is written
back unchanged. -/
theorem c10_remove_samevaluezero :
    ∀ (st : ROut) (r : IRule) (xs : List Value), r.op = .remove →
      getDeep (.obj st.out) r.keyPath = some (.arr xs) →
      ((applyPostOne st r).out
          = setDeep st.out r.keyPath
              (.arr (xs.filter (fun x => !((toItems (clone r.value)).any (sameValueZero x))))))
      ∧ (∀ x ∈ xs, isScalarV x = false →
          (!((toItems (clone r.value)).any (sameValueZero x))) = true)
      ∧ (∀ x ∈ xs, isScalarV x = true →
          (((toItems (clone r.value)).any (sameValueZero x)) = true
            ↔ x ∈ toItems (clone r.value)))
      ∧ (∀ f, r.value = .obj f →
          xs.filter (fun x => !((toItems (clone r.value)).any (sameValueZero x))) = xs) := by
  intro st r xs hop hget
  refine ⟨?_, ?_, ?_, ?_⟩
  · rw [applyPostOne_toItems]
    simp only [hop, hget]
  · intro x _ hsc
    simp only [Bool.not_eq_true']
    rw [List.any_eq_false]
    intro i _
    simp [sameValueZero_of_nonscalar hsc i]
  · intro x _ hsc
    rw [List.any_eq_true]
    constructor
    · rintro ⟨i, hi, hsvz⟩
      rw [sameValueZero_iff_of_scalar hsc i] at hsvz
      exact hsvz ▸ hi
    · intro hx
      exact ⟨x, hx, (sameValueZero_iff_of_scalar hsc x).mpr rfl⟩
  · intro f hv
    rw [List.filter_eq_self]
    intro a _
    simp only [hv, clone, toItems, List.any_cons, List.any_nil,
      sameValueZero_obj_right, Bool.or_false, Bool.not_false]

/-- C10 witness: removing `["a", {x: 1}]` from `["a", {x: 1}, "b"]`
deletes only the string `"a"`; the mapping element survives because the
cloned removal mapping is a fresh reference. -/
theorem c10_remove_samevaluezero_witness :
    (applyPostOne ⟨[("list", .arr [.str "a", .obj [("x", .num 1)], .str "b"])], []⟩
        ⟨⟨"f", 2, 0, "prod.list", ["prod", "list"], .remove,
          .arr [.str "a", .obj [("x", .num 1)]]⟩, ["prod"], ["list"], "list"⟩).out
      = setDeep [("list", .arr [.str "a", .obj [("x", .num 1)], .str "b"])] ["list"]
          (.arr ([.str "a", .obj [("x", .num 1)], .str "b"].filter
            (fun x => !((toItems (clone (.arr [.str "a", .obj [("x", .num 1)]]))).any
              (sameValueZero x))))) :=
  (c10_remove_samevaluezero
    ⟨[("list", .arr [.str "a", .obj [("x", .num 1)], .str "b"])], []⟩
    ⟨⟨"f", 2, 0, "prod.list", ["prod", "list"], .remove,
      .arr [.str "a", .obj [("x", .num 1)]]⟩, ["prod"], ["list"], "list"⟩
    [.str "a", .obj [("x", .num 1)], .str "b"] rfl (by decide)).1

/-! ## Claim C7 (amended): substitution is a no-op on span-free trees -/

/-- Does the interpolation scanner match anywhere in the string?  (This
is what "contains a `${...}` span" means operationally.) -/
def hasInterpMatch : List Char → Bool
  | [] => false
  | c :: cs => (matchInterpAt (c :: cs)).isSome || hasInterpMatch cs

mutual

/-- Every string leaf of the tree satisfies `p`. -/
def allStrLeaves (p : String → Bool) : Value → Bool
  | .str s => p s
  | .arr xs => allStrLeavesList p xs
  | .obj fs => allStrLeavesFields p fs
  | _ => true

def allStrLeavesList (p : String → Bool) : List Value → Bool
  | [] => true
  | v :: vs => allStrLeaves p v && allStrLeavesList p vs

def allStrLeavesFields (p : String → Bool) : List (String × Value) → Bool
  | [] => true
  | (_, v) :: fs => allStrLeaves p v && allStrLeavesFields p fs

end

theorem interpGo_no_match (icfg : InterpCtx) :
    ∀ l : List Char, hasInterpMatch l = false → interpGo icfg l.length l = (l, []) := by
  intro l
  induction l with
  | nil => intro _; simp [interpGo]
  | cons c cs ih =>
      intro h
      simp only [hasInterpMatch, Bool.or_eq_false_iff] at h
      simp only [List.length_cons, interpGo]
      match hm : matchInterpAt (c :: cs) with
      | some r => rw [hm] at h; simp at h
      | none => simp only [ih h.2]

mutual

theorem applyInterpolationDeep_noop (icfg : InterpCtx) :
    ∀ t : Value, allStrLeaves (fun s => !hasInterpMatch s.toList) t = true →
      applyInterpolationDeep icfg t = (t, [])
  | .null, _ => rfl
  | .bool _, _ => rfl
  | .num _, _ => rfl
  | .str s, h => by
      have hs : hasInterpMatch s.toList = false := by
        simpa [allStrLeaves] using h
      simp only [applyInterpolationDeep, interpolate, interpGo_no_match icfg s.toList hs]
      rfl
  | .arr xs, h => by
      have := interpDeepList_noop icfg xs (by simpa [allStrLeaves] using h)
      simp only [applyInterpolationDeep, this]
  | .obj fs, h => by
      have := interpDeepFields_noop icfg fs (by simpa [allStrLeaves] using h)
      simp only [applyInterpolationDeep, this]

theorem interpDeepList_noop (icfg : InterpCtx) :
    ∀ xs : List Value, allStrLeavesList (fun s => !hasInterpMatch s.toList) xs = true →
      interpDeepList icfg xs = (xs, [])
  | [], _ => rfl
  | v :: vs, h => by
      have h1 : allStrLeaves (fun s => !hasInterpMatch s.toList) v = true := by
        have := h; simp [allStrLeavesList] at this; exact this.1
      have h2 : allStrLeavesList (fun s => !hasInterpMatch s.toList) vs = true := by
        have := h; simp [allStrLeavesList] at this; exact this.2
      simp only [interpDeepList, applyInterpolationDeep_noop icfg v h1,
        interpDeepList_noop icfg vs h2]
      rfl

theorem interpDeepFields_noop (icfg : InterpCtx) :
    ∀ fs : List (String × Value),
      allStrLeavesFields (fun s => !hasInterpMatch s.toList) fs = true →
      interpDeepFields icfg fs = (fs, [])
  | [], _ => rfl
  | (k, v) :: fs, h => by
      have h1 : allStrLeaves (fun s => !hasInterpMatch s.toList) v = true := by
        have := h; simp [allStrLeavesFields] at this; exact this.1
      have h2 : allStrLeavesFields (fun s => !hasInterpMatch s.toList) fs = true := by
        have := h; simp [allStrLeavesFields] at this; exact this.2
      simp only [interpDeepFields, applyInterpolationDeep_noop icfg v h1,
        interpDeepFields_noop icfg fs h2]
      rfl

end

/-- C7 (amended): (i) on a tree whose string leaves contain no `${...}`
span, placeholder substitution returns a structurally identical tree and
records no warnings; (ii) secret substitution on a tree with no secret
references returns the tree, warnings and cache unchanged.  (The
unconditional second half of the claim — a second run on substituted
output is the identity — fails: see the counterexample, where a
substituted value assembles a new span.) -/
theorem c7_noop_on_span_free :
    (∀ (icfg : InterpCtx) (t : Value),
        allStrLeaves (fun s => !hasInterpMatch s.toList) t = true →
        applyInterpolationDeep icfg t = (t, []))
    ∧ (∀ (t : Value) (registry : String → Option (String → FetchResult))
        (allowed : Option (List String)) (cache0 : Option SecretCache)
        (ttl : Nat) (onf : OnNotFound) (now : Nat) (w0 : List Warning),
        collectSecretRefs [] t = [] →
        applySecretsDeep t registry allowed cache0 ttl onf now w0 = .ok (t, w0, cache0)) := by
  constructor
  · exact fun icfg t h => applyInterpolationDeep_noop icfg t h
  · intro t registry allowed cache0 ttl onf now w0 h
    simp [applySecretsDeep, h]

/-- C7 witness. -/
theorem c7_noop_on_span_free_witness :
    applyInterpolationDeep icfgC7 (.obj [("a", .str "plain"), ("b", .num 3)])
      = (.obj [("a", .str "plain"), ("b", .num 3)], []) :=
  c7_noop_on_span_free.1 icfgC7 (.obj [("a", .str "plain"), ("b", .num 3)]) (by decide)

/-! ## Claim C6: secret-shaped spans pass through interpolation -/

theorem takeWhile_append_stop {p : Char → Bool} {x : Char} (hx : p x = false) :
    ∀ (e rest : List Char), e.all p = true → (e ++ x :: rest).takeWhile p = e := by
  intro e
  induction e with
  | nil => intro rest _; simp [List.takeWhile, hx]
  | cons c cs ih =>
      intro rest h
      simp only [List.all_cons, Bool.and_eq_true] at h
      simp [List.takeWhile, h.1, ih rest h.2]

theorem matchInterpAt_span {e suffix : List Char}
    (hne : e ≠ []) (hbrace : e.all (fun c => !(c == '}')) = true) :
    matchInterpAt ('$' :: '{' :: (e ++ '}' :: suffix)) = some (e, suffix) := by
  have htw : (e ++ '}' :: suffix).takeWhile (fun c => !(c == '}')) = e :=
    takeWhile_append_stop (by simp) e suffix hbrace
  have hdrop : (e ++ '}' :: suffix).drop e.length = '}' :: suffix := by
    simpa using List.drop_left e ('}' :: suffix)
  simp only [matchInterpAt, htw, hdrop]
  simp [hne]

theorem secretShaped_first_upper {s : String} (h : secretShaped s = true) :
    ∃ c rest, s.toList = c :: rest ∧ isUpperAZ c = true := by
  unfold secretShaped at h
  match hs : s.toList with
  | [] => rw [hs] at h; simp at h
  | c :: rest =>
      rw [hs] at h
      simp only [Bool.and_eq_true] at h
      exact ⟨c, rest, rfl, h.1⟩

theorem secretShaped_not_ctx {s : String} (h : secretShaped s = true) :
    strStartsWith s "ctx." = false := by
  obtain ⟨c, rest, hs, hup⟩ := secretShaped_first_upper h
  unfold strStartsWith
  rw [hs]
  have hcv : c ≠ 'c' := by
    intro hc
    subst hc
    simp [isUpperAZ, Char.le_def] at hup
  have : ("ctx.".toList) = 'c' :: "tx.".toList := rfl
  rw [this]
  simp only [List.isPrefixOf]
  simp [hcv]
  intro hc
  exact absurd hc.symm hcv

/-- The replacement callback keeps a secret-shaped expression intact
with no warning. -/
theorem interpOne_secret (icfg : InterpCtx) (e : List Char)
    (hshape : secretShaped (jsTrim (String.mk e)) = true)
    (henv : strStartsWith (jsTrim (String.mk e)) "ENV:" = false)
    (hvar : strStartsWith (jsTrim (String.mk e)) "VAR:" = false) :
    interpOne icfg e = ("$\x7b" ++ String.mk e ++ "\x7d", []) := by
  have hctx := secretShaped_not_ctx hshape
  simp only [interpOne, henv, hvar, hctx, hshape, Bool.false_eq_true, if_false, if_true]

theorem c6_aux (icfg : InterpCtx) (e suffix : List Char)
    (hne : e ≠ []) (hbrace : e.all (fun c => !(c == '}')) = true)
    (hshape : secretShaped (jsTrim (String.mk e)) = true)
    (henv : strStartsWith (jsTrim (String.mk e)) "ENV:" = false)
    (hvar : strStartsWith (jsTrim (String.mk e)) "VAR:" = false) :
    ∀ (pre : List Char) (fuel : Nat),
      (pre ++ '$' :: '{' :: (e ++ '}' :: suffix)).length ≤ fuel →
      pre.all (fun c => !(c == '$')) = true →
      interpGo icfg fuel (pre ++ '$' :: '{' :: (e ++ '}' :: suffix))
        = (pre ++ '$' :: '{' :: (e ++ '}' :: (interpGo icfg suffix.length suffix).1),
           (interpGo icfg suffix.length suffix).2) := by
  intro pre
  induction pre with
  | nil =>
      intro fuel hfuel _
      simp only [List.nil_append, List.length_cons] at hfuel ⊢
      match fuel, hfuel with
      | f + 1, hfuel =>
          simp only [interpGo, matchInterpAt_span hne hbrace]
          rw [interpOne_secret icfg e hshape henv hvar]
          have hsuf : suffix.length ≤ f := by
            have := hfuel
            simp only [List.length_append, List.length_cons] at this
            omega
          rw [interpGo_fuel icfg f suffix.length suffix hsuf (Nat.le_refl _)]
          have hdata : ("$\x7b" ++ String.mk e ++ "\x7d").toList
              = '$' :: '{' :: (e ++ ['}']) := by
            show (("$\x7b" ++ String.mk e) ++ "\x7d").data = _
            rw [String.data_append, String.data_append]
            rfl
          simp [hdata]
  | cons c cs ih =>
      intro fuel hfuel hall
      simp only [List.all_cons, Bool.and_eq_true] at hall
      have hc : (c == '$') = false := by simpa using hall.1
      have hcons : ∃ d ds, cs ++ '$' :: '{' :: (e ++ '}' :: suffix) = d :: ds := by
        cases hcs : cs ++ '$' :: '{' :: (e ++ '}' :: suffix) with
        | nil => exact absurd hcs (by simp)
        | cons d ds => exact ⟨d, ds, rfl⟩
      obtain ⟨d, ds, hds⟩ := hcons
      simp only [List.cons_append, List.length_cons] at hfuel ⊢
      match fuel, hfuel with
      | f + 1, hfuel =>
          have hnomatch : matchInterpAt (c :: (cs ++ '$' :: '{' :: (e ++ '}' :: suffix)))
              = none := by
            rw [hds]
            unfold matchInterpAt
            have : ¬(c = '$' ∧ d = '{') := by
              rintro ⟨hc', _⟩
              subst hc'
              simp at hc
            simp [this]
          simp only [interpGo, hnomatch]
          rw [ih f (by omega) hall.2]

/-- C6: a `${...}` span whose trimmed inner expression has the secret-
provider shape (`^[A-Z][A-Z0-9_]*:`) and is not an `ENV:`/`VAR:`
expression is copied to the output completely unmodified and records no
warning; interpolation continues after it, so only the later secret
stage can replace it.  `pre` is the text before the span (free of `$`,
so that the span is the first candidate match) and `suffix` the text
after it. -/
theorem c6_secret_spans_untouched :
    ∀ (icfg : InterpCtx) (pre e suffix : List Char),
      pre.all (fun c => !(c == '$')) = true →
      e ≠ [] → e.all (fun c => !(c == '}')) = true →
      secretShaped (jsTrim (String.mk e)) = true →
      strStartsWith (jsTrim (String.mk e)) "ENV:" = false →
      strStartsWith (jsTrim (String.mk e)) "VAR:" = false →
      interpolate icfg (String.mk (pre ++ '$' :: '{' :: (e ++ '}' :: suffix)))
        = (String.mk (pre ++ '$' :: '{' :: (e ++ '}' :: (interpGo icfg suffix.length suffix).1)),
           (interpGo icfg suffix.length suffix).2) := by
  intro icfg pre e suffix hpre hne hbrace hshape henv hvar
  have haux := c6_aux icfg e suffix hne hbrace hshape henv hvar pre
    (pre ++ '$' :: '{' :: (e ++ '}' :: suffix)).length (Nat.le_refl _) hpre
  simp only [interpolate]
  rw [show (String.mk (pre ++ '$' :: '{' :: (e ++ '}' :: suffix))).toList
        = pre ++ '$' :: '{' :: (e ++ '}' :: suffix) from rfl]
  rw [haux]

/-- C6 witness: `"x${AWS:key}y"` comes straight back out. -/
theorem c6_secret_spans_untouched_witness :
    interpolate (icfgOf (fun _ => none))
        (String.mk ("x".toList ++ '$' :: '{' :: ("AWS:key".toList ++ '}' :: "y".toList)))
      = (String.mk ("x".toList ++ '$' :: '{' :: ("AWS:key".toList
            ++ '}' :: (interpGo (icfgOf (fun _ => none)) "y".toList.length "y".toList).1)),
         (interpGo (icfgOf (fun _ => none)) "y".toList.length "y".toList).2) :=
  c6_secret_spans_untouched (icfgOf (fun _ => none)) "x".toList "AWS:key".toList "y".toList
    (by decide) (by decide) (by decide) (by decide) (by decide) (by decide)

/-! ## Claim C1: the primary winner is a most-specific, latest candidate -/

theorem selectWinner_props :
    ∀ (cs : List IRule) (w : IRule) (b : Nat), b = specificity w.scope →
      (selectWinner w b cs).2 = specificity (selectWinner w b cs).1.scope
      ∧ b ≤ (selectWinner w b cs).2
      ∧ (∀ c ∈ w :: cs, specificity c.scope ≤ (selectWinner w b cs).2)
      ∧ ∃ pre post, w :: cs = pre ++ (selectWinner w b cs).1 :: post
          ∧ ∀ c ∈ post, specificity c.scope < (selectWinner w b cs).2 := by
  intro cs
  induction cs with
  | nil =>
      intro w b hb
      simp only [selectWinner]
      refine ⟨hb, Nat.le_refl _, ?_, [], [], rfl, by simp⟩
      intro c hc
      rw [List.mem_singleton] at hc
      subst hc
      omega
  | cons c cs ih =>
      intro w b hb
      by_cases h1 : b < specificity c.scope
      · have hrw : selectWinner w b (c :: cs) = selectWinner c (specificity c.scope) cs := by
          simp [selectWinner, h1]
        obtain ⟨p1, p2, p3, pre', post', hdec, hpost⟩ := ih c (specificity c.scope) rfl
        rw [hrw]
        refine ⟨p1, by omega, ?_, w :: pre', post', ?_, hpost⟩
        · intro x hx
          rcases List.mem_cons.mp hx with hx | hx
          · subst hx; omega
          · exact p3 x hx
        · rw [List.cons_append, ← hdec]
      · by_cases h2 : specificity c.scope = b
        · have hrw : selectWinner w b (c :: cs) = selectWinner c b cs := by
            simp [selectWinner, h1, h2]
          obtain ⟨p1, p2, p3, pre', post', hdec, hpost⟩ := ih c b (by omega)
          rw [hrw]
          refine ⟨p1, p2, ?_, w :: pre', post', ?_, hpost⟩
          · intro x hx
            rcases List.mem_cons.mp hx with hx | hx
            · subst hx; omega
            · exact p3 x hx
          · rw [List.cons_append, ← hdec]
        · have hrw : selectWinner w b (c :: cs) = selectWinner w b cs := by
            simp [selectWinner, h1, h2]
          obtain ⟨p1, p2, p3, pre', post', hdec, hpost⟩ := ih w b hb
          rw [hrw]
          have hcs : specificity c.scope < (selectWinner w b cs).2 := by omega
          refine ⟨p1, p2, ?_, ?_⟩
          · intro x hx
            rcases List.mem_cons.mp hx with hx | hx
            · subst hx; exact p3 x (by simp)
            · rcases List.mem_cons.mp hx with hx | hx
              · subst hx; omega
              · exact p3 x (by simp [hx])
          · match pre', hdec with
            | [], hdec =>
                have hw : (selectWinner w b cs).1 = w := by
                  simpa using (congrArg (fun l => l.head?) hdec).symm
                have hpost' : cs = post' := by
                  simpa using congrArg (fun l => l.tail) hdec
                refine ⟨[], c :: cs, by simp [hw], ?_⟩
                intro x hx
                rcases List.mem_cons.mp hx with hx | hx
                · subst hx; exact hcs
                · exact hpost x (hpost' ▸ hx)
            | p0 :: pre'', hdec =>
                have hp0 : p0 = w := by
                  simpa using (congrArg (fun l => l.head?) hdec).symm
                have htl : cs = pre'' ++ (selectWinner w b cs).1 :: post' := by
                  simpa using congrArg (fun l => l.tail) hdec
                refine ⟨w :: c :: pre'', post', ?_, hpost⟩
                exact congrArg (fun l => w :: c :: l) htl

/-- A primary candidate for `key`: matches the context scope, is not a
deferred operator, and its joined key path equals `key`. -/
def candPred (ctxScope : List String) (key : String) (r : IRule) : Bool :=
  scopeMatches r.scope ctxScope && !(isPost r.op) && (r.keyPathStr == key)

theorem addCand_keys (k : String) (r : IRule) :
    ∀ m : List (String × List IRule),
      (addCand m k r).map Prod.fst
        = if k ∈ m.map Prod.fst then m.map Prod.fst else m.map Prod.fst ++ [k] := by
  intro m
  induction m with
  | nil => simp [addCand]
  | cons e rest ih =>
      match e with
      | (k', l) =>
          by_cases hk : k' = k
          · subst hk
            simp [addCand]
          · simp only [addCand, if_neg hk, List.map_cons, ih]
            by_cases hmem : k ∈ rest.map Prod.fst
            · simp [hmem, Ne.symm hk]
            · simp [hmem, Ne.symm hk]

theorem addCand_mem (k : String) (r : IRule) :
    ∀ m : List (String × List IRule), (m.map Prod.fst).Nodup →
      ∀ key cand, (key, cand) ∈ addCand m k r →
        ((key, cand) ∈ m ∧ key ≠ k)
        ∨ (key = k ∧ ∃ old, (k, old) ∈ m ∧ cand = old ++ [r])
        ∨ (key = k ∧ cand = [r] ∧ k ∉ m.map Prod.fst) := by
  intro m
  induction m with
  | nil =>
      intro _ key cand hmem
      simp only [addCand, List.mem_singleton, Prod.mk.injEq] at hmem
      exact Or.inr (Or.inr ⟨hmem.1, hmem.2, by simp⟩)
  | cons e rest ih =>
      match e with
      | (k', l) =>
          intro hnd key cand hmem
          simp only [List.map_cons, List.nodup_cons] at hnd
          by_cases hk : k' = k
          · subst hk
            simp only [addCand, eq_self_iff_true, ite_true, List.mem_cons] at hmem
            rcases hmem with hmem | hmem
            · rw [Prod.mk.injEq] at hmem
              exact Or.inr (Or.inl ⟨hmem.1, l, by simp, hmem.2⟩)
            · have hkey : key ≠ k' := by
                intro hkey
                subst hkey
                exact hnd.1 (List.mem_map.mpr ⟨(key, cand), hmem, rfl⟩)
              exact Or.inl ⟨List.mem_cons.mpr (Or.inr hmem), hkey⟩
          · simp only [addCand, if_neg hk, List.mem_cons] at hmem
            rcases hmem with hmem | hmem
            · rw [Prod.mk.injEq] at hmem
              refine Or.inl ⟨List.mem_cons.mpr (Or.inl (by simp [hmem.1, hmem.2])), ?_⟩
              rw [hmem.1]
              exact hk
            · rcases ih hnd.2 key cand hmem with h | h | h
              · exact Or.inl ⟨List.mem_cons.mpr (Or.inr h.1), h.2⟩
              · exact Or.inr (Or.inl ⟨h.1, h.2.choose, List.mem_cons.mpr
                  (Or.inr h.2.choose_spec.1), h.2.choose_spec.2⟩)
              · refine Or.inr (Or.inr ⟨h.1, h.2.1, ?_⟩)
                simp only [List.map_cons, List.mem_cons]
                rintro (hc | hc)
                · exact hk hc.symm
                · exact h.2.2 hc

theorem filter_snoc {α : Type} (p : α → Bool) (l : List α) (r : α) :
    (l ++ [r]).filter p = l.filter p ++ if p r then [r] else [] := by
  rw [List.filter_append]
  congr 1
  by_cases h : p r <;> simp [List.filter, h]

theorem partition_fold_inv (ctxScope : List String) :
    ∀ (rs : List IRule) (acc : List (String × List IRule) × List IRule)
      (processed : List IRule),
      (acc.1.map Prod.fst).Nodup →
      (∀ key cand, (key, cand) ∈ acc.1 →
        cand = processed.filter (candPred ctxScope key) ∧ cand ≠ []) →
      (∀ key, key ∉ acc.1.map Prod.fst →
        processed.filter (candPred ctxScope key) = []) →
      (((rs.foldl (fun acc r =>
          if scopeMatches r.scope ctxScope then
            if isPost r.op then (acc.1, acc.2 ++ [r])
            else (addCand acc.1 r.keyPathStr r, acc.2)
          else acc) acc).1.map Prod.fst).Nodup
      ∧ (∀ key cand, (key, cand) ∈ (rs.foldl (fun acc r =>
          if scopeMatches r.scope ctxScope then
            if isPost r.op then (acc.1, acc.2 ++ [r])
            else (addCand acc.1 r.keyPathStr r, acc.2)
          else acc) acc).1 →
        cand = (processed ++ rs).filter (candPred ctxScope key) ∧ cand ≠ [])
      ∧ (∀ key, key ∉ ((rs.foldl (fun acc r =>
          if scopeMatches r.scope ctxScope then
            if isPost r.op then (acc.1, acc.2 ++ [r])
            else (addCand acc.1 r.keyPathStr r, acc.2)
          else acc) acc).1.map Prod.fst) →
        (processed ++ rs).filter (candPred ctxScope key) = [])) := by
  intro rs
  induction rs with
  | nil =>
      intro acc processed h1 h2 h3
      simp only [List.foldl_nil, List.append_nil]
      exact ⟨h1, h2, h3⟩
  | cons r rs ih =>
      intro acc processed h1 h2 h3
      rw [List.foldl_cons]
      have hassoc : processed ++ r :: rs = (processed ++ [r]) ++ rs := by simp
      rw [hassoc]
      by_cases hm : scopeMatches r.scope ctxScope
      · by_cases hp : isPost r.op
        · have hpred : ∀ key, candPred ctxScope key r = false := by
            intro key; simp [candPred, hm, hp]
          have hf : ∀ key, (processed ++ [r]).filter (candPred ctxScope key)
              = processed.filter (candPred ctxScope key) := by
            intro key; rw [filter_snoc]; simp [hpred key]
          simp only [hm, hp, if_true, if_pos]
          exact ih (acc.1, acc.2 ++ [r]) (processed ++ [r]) h1
            (fun key cand hmem => (hf key) ▸ h2 key cand hmem)
            (fun key hkey => (hf key) ▸ h3 key hkey)
        · have hpred : ∀ key, candPred ctxScope key r = (r.keyPathStr == key) := by
            intro key; simp [candPred, hm, hp]
          have hfk : (processed ++ [r]).filter (candPred ctxScope r.keyPathStr)
              = processed.filter (candPred ctxScope r.keyPathStr) ++ [r] := by
            rw [filter_snoc]; simp [hpred]
          have hfother : ∀ key, key ≠ r.keyPathStr →
              (processed ++ [r]).filter (candPred ctxScope key)
                = processed.filter (candPred ctxScope key) := by
            intro key hne
            rw [filter_snoc]
            have : (r.keyPathStr == key) = false := by
              simp only [beq_eq_false_iff_ne]
              exact fun hc => hne hc.symm
            simp [hpred, this]
          simp only [hm, hp, if_true, if_neg, Bool.false_eq_true, if_false]
          refine ih (addCand acc.1 r.keyPathStr r, acc.2) (processed ++ [r]) ?_ ?_ ?_
          · rw [addCand_keys]
            by_cases hin : r.keyPathStr ∈ acc.1.map Prod.fst
            · simpa [hin] using h1
            · simp only [hin, if_false, Bool.false_eq_true]
              rw [List.nodup_append]
              exact ⟨h1, List.nodup_singleton _, by simpa using hin⟩
          · intro key cand hmem
            rcases addCand_mem r.keyPathStr r acc.1 h1 key cand hmem with h | h | h
            · obtain ⟨hold, hnel⟩ := h2 key cand h.1
              exact ⟨by rw [hfother key h.2, ← hold], hnel⟩
            · obtain ⟨hkey, old, hmemold, hcand⟩ := h
              obtain ⟨hold, _⟩ := h2 r.keyPathStr old hmemold
              subst hkey
              refine ⟨?_, by simp [hcand]⟩
              rw [hfk, ← hold, hcand]
            · obtain ⟨hkey, hcand, hnotin⟩ := h
              subst hkey
              refine ⟨?_, by simp [hcand]⟩
              rw [hfk, h3 r.keyPathStr hnotin, hcand]
              simp
          · intro key hkey
            rw [addCand_keys] at hkey
            by_cases hin : r.keyPathStr ∈ acc.1.map Prod.fst
            · rw [if_pos hin] at hkey
              have hne : key ≠ r.keyPathStr := fun hc => hkey (hc ▸ hin)
              rw [hfother key hne]
              exact h3 key hkey
            · rw [if_neg hin] at hkey
              simp only [List.mem_append, List.mem_singleton] at hkey
              push_neg at hkey
              rw [hfother key hkey.2]
              exact h3 key hkey.1
      · have hpred : ∀ key, candPred ctxScope key r = false := by
          intro key; simp [candPred, hm]
        have hf : ∀ key, (processed ++ [r]).filter (candPred ctxScope key)
            = processed.filter (candPred ctxScope key) := by
          intro key; rw [filter_snoc]; simp [hpred key]
        simp only [hm, Bool.false_eq_true, if_false]
        exact ih acc (processed ++ [r]) h1
          (fun key cand hmem => (hf key) ▸ h2 key cand hmem)
          (fun key hkey => (hf key) ▸ h3 key hkey)

/-- C1: for every rule set, declared dimensions and context, every entry
of `candidatesByKey` holds exactly the matching primary candidates for
its key-path string, in original rule order, and the selected winner is
one of them, has specificity greater than or equal to every candidate
for that key, and is the last candidate attaining that specificity
(every candidate after it in the original order is strictly less
specific). -/
theorem c1_winner_most_specific_latest :
    ∀ (rules : List Rule) (dims : List String) (icfg : InterpCtx)
      (indexed : List IRule) (key : String) (cand : List IRule),
      indexRules dims rules = .ok indexed →
      (key, cand) ∈ (partitionRules indexed (dims.map (fun d => (icfg.ctx d).getD ""))).1 →
      cand = indexed.filter (candPred (dims.map (fun d => (icfg.ctx d).getD "")) key)
      ∧ ∃ w, winnerFor cand = some w
          ∧ w ∈ cand
          ∧ (∀ c ∈ cand, specificity c.scope ≤ specificity w.scope)
          ∧ ∃ pre post, cand = pre ++ w :: post
              ∧ ∀ c ∈ post, specificity c.scope < specificity w.scope := by
  intro rules dims icfg indexed key cand _ hmem
  have hinv := partition_fold_inv (dims.map (fun d => (icfg.ctx d).getD "")) indexed
      ([], []) [] (by simp) (by simp) (by simp)
  unfold partitionRules at hmem
  obtain ⟨hfil, hne⟩ := hinv.2.1 key cand (by simpa using hmem)
  rw [List.nil_append] at hfil
  refine ⟨hfil, ?_⟩
  match cand, hne with
  | c :: cs, _ =>
      obtain ⟨p1, _, p3, pre, post, hdec, hpost⟩ :=
        selectWinner_props cs c (specificity c.scope) rfl
      refine ⟨(selectWinner c (specificity c.scope) cs).1, rfl, ?_, ?_, pre, post, hdec, ?_⟩
      · rw [hdec]; simp
      · intro x hx
        have := p3 x hx
        omega
      · intro x hx
        have := hpost x hx
        omega

def rulesC1 : List Rule :=
  [ ⟨"a.colony", 1, 0, "prod.*.db.host", ["prod", "*", "db", "host"], .assign, .str "first"⟩,
    ⟨"a.colony", 2, 0, "*.us.db.host", ["*", "us", "db", "host"], .assign, .str "second"⟩,
    ⟨"a.colony", 3, 0, "dev.*.db.host", ["dev", "*", "db", "host"], .assign, .str "third"⟩ ]

def indexedC1 : List IRule :=
  [ ⟨⟨"a.colony", 1, 0, "prod.*.db.host", ["prod", "*", "db", "host"], .assign, .str "first"⟩,
      ["prod", "*"], ["db", "host"], "db.host"⟩,
    ⟨⟨"a.colony", 2, 0, "*.us.db.host", ["*", "us", "db", "host"], .assign, .str "second"⟩,
      ["*", "us"], ["db", "host"], "db.host"⟩,
    ⟨⟨"a.colony", 3, 0, "dev.*.db.host", ["dev", "*", "db", "host"], .assign, .str "third"⟩,
      ["dev", "*"], ["db", "host"], "db.host"⟩ ]

def candC1 : List IRule := indexedC1.take 2

/-- C1 witness: under `{env: prod, region: us}` the first two rules tie
at specificity 1 (the `dev` rule does not match); the winner is the
later of the two. -/
theorem c1_winner_most_specific_latest_witness :
    candC1 = indexedC1.filter
        (candPred (["env", "region"].map (fun d => ((icfgOf ctxProdUS).ctx d).getD ""))
          "db.host")
    ∧ ∃ w, winnerFor candC1 = some w
        ∧ w ∈ candC1
        ∧ (∀ c ∈ candC1, specificity c.scope ≤ specificity w.scope)
        ∧ ∃ pre post, candC1 = pre ++ w :: post
            ∧ ∀ c ∈ post, specificity c.scope < specificity w.scope :=
  c1_winner_most_specific_latest rulesC1 ["env", "region"] (icfgOf ctxProdUS) indexedC1
    "db.host" candC1 (by decide) (by decide)

/-! ## Claim C5: unknown provider — empty value, one warning per pair -/

theorem jsMapGet_set_self {α : Type} (m : List (String × α)) (key : String) (v : α) :
    jsMapGet (jsMapSet m key v) key = some v := by
  induction m with
  | nil => simp [jsMapSet, jsMapGet]
  | cons e rest ih =>
      match e with
      | (k', w) =>
          by_cases h : k' = key
          · subst h; simp [jsMapSet, jsMapGet]
          · simp [jsMapSet, jsMapGet, h, ih]

theorem jsMapGet_set_ne {α : Type} (m : List (String × α)) {key key' : String} (v : α)
    (h : key' ≠ key) : jsMapGet (jsMapSet m key v) key' = jsMapGet m key' := by
  induction m with
  | nil => simp [jsMapSet, jsMapGet, Ne.symm h]
  | cons e rest ih =>
      match e with
      | (k', w) =>
          by_cases hk : k' = key
          · subst hk
            simp [jsMapSet, jsMapGet, Ne.symm h]
          · by_cases hk2 : k' = key'
            · subst hk2; simp [jsMapSet, jsMapGet, hk]
            · simp [jsMapSet, jsMapGet, hk, Ne.symm hk2, ih]

/-- Well-formedness of a collected reference: its full key is
`provider ++ ":" ++ key`. -/
def refWF (e : SecretRef) : Prop := e.1 = e.2.1 ++ ":" ++ e.2.2

theorem addRef_inv {refs : List SecretRef} (provider key : String)
    (h1 : (refs.map Prod.fst).Nodup) (h2 : ∀ e ∈ refs, refWF e) :
    ((addRef refs provider key).map Prod.fst).Nodup
    ∧ (∀ e ∈ addRef refs provider key, refWF e) := by
  unfold addRef
  by_cases h : refs.any (fun e => e.1 == provider ++ ":" ++ jsTrim key)
  · simp only [h, if_true]
    exact ⟨h1, h2⟩
  · simp only [h, Bool.false_eq_true, if_false, if_neg]
    constructor
    · rw [List.map_append, List.nodup_append]
      refine ⟨h1, by simp, ?_⟩
      intro a ha
      simp only [List.map_cons, List.map_nil, List.mem_singleton]
      intro hc
      subst hc
      rw [Bool.not_eq_true, List.any_eq_false] at h
      obtain ⟨e, he, he1⟩ := List.mem_map.mp ha
      have := h e he
      simp [he1] at this
    · intro e he
      rcases List.mem_append.mp he with he | he
      · exact h2 e he
      · rw [List.mem_singleton] at he
        subst he
        rfl

theorem collectRefsStr_inv (fuel : Nat) :
    ∀ (l : List Char) (refs : List SecretRef),
      (refs.map Prod.fst).Nodup → (∀ e ∈ refs, refWF e) →
      (((collectRefsStr refs fuel l).map Prod.fst).Nodup
        ∧ (∀ e ∈ collectRefsStr refs fuel l, refWF e)) := by
  induction fuel with
  | zero =>
      intro l refs h1 h2
      cases l <;> exact ⟨h1, h2⟩
  | succ fuel ih =>
      intro l refs h1 h2
      match l with
      | [] => exact ⟨h1, h2⟩
      | c :: cs =>
          simp only [collectRefsStr]
          match matchSecretAt (c :: cs) with
          | some (provider, key, rest) =>
              by_cases hres : isReserved provider
              · simp only [hres, if_true]
                exact ih rest refs h1 h2
              · simp only [hres, Bool.false_eq_true, if_false]
                obtain ⟨g1, g2⟩ := addRef_inv provider key h1 h2
                exact ih rest (addRef refs provider key) g1 g2
          | none => exact ih cs refs h1 h2

mutual

theorem collectSecretRefs_inv :
    ∀ (t : Value) (refs : List SecretRef),
      (refs.map Prod.fst).Nodup → (∀ e ∈ refs, refWF e) →
      (((collectSecretRefs refs t).map Prod.fst).Nodup
        ∧ (∀ e ∈ collectSecretRefs refs t, refWF e))
  | .null, refs, h1, h2 => ⟨h1, h2⟩
  | .bool _, refs, h1, h2 => ⟨h1, h2⟩
  | .num _, refs, h1, h2 => ⟨h1, h2⟩
  | .str s, refs, h1, h2 => collectRefsStr_inv s.toList.length s.toList refs h1 h2
  | .arr xs, refs, h1, h2 => collectRefsList_inv xs refs h1 h2
  | .obj fs, refs, h1, h2 => collectRefsFields_inv fs refs h1 h2

theorem collectRefsList_inv :
    ∀ (xs : List Value) (refs : List SecretRef),
      (refs.map Prod.fst).Nodup → (∀ e ∈ refs, refWF e) →
      (((collectRefsList refs xs).map Prod.fst).Nodup
        ∧ (∀ e ∈ collectRefsList refs xs, refWF e))
  | [], refs, h1, h2 => ⟨h1, h2⟩
  | v :: vs, refs, h1, h2 => by
      obtain ⟨g1, g2⟩ := collectSecretRefs_inv v refs h1 h2
      exact collectRefsList_inv vs (collectSecretRefs refs v) g1 g2

theorem collectRefsFields_inv :
    ∀ (fs : List (String × Value)) (refs : List SecretRef),
      (refs.map Prod.fst).Nodup → (∀ e ∈ refs, refWF e) →
      (((collectRefsFields refs fs).map Prod.fst).Nodup
        ∧ (∀ e ∈ collectRefsFields refs fs, refWF e))
  | [], refs, h1, h2 => ⟨h1, h2⟩
  | (_, v) :: fs, refs, h1, h2 => by
      obtain ⟨g1, g2⟩ := collectSecretRefs_inv v refs h1 h2
      exact collectRefsFields_inv fs (collectSecretRefs refs v) g1 g2

end

theorem processRef_ok {registry : String → Option (String → FetchResult)}
    {ttl : Nat} {onf : OnNotFound} {now : Nat} {st st' : SecretsState} {e : SecretRef}
    (hc : st.cache = none)
    (hpr : processRef registry none ttl onf now st e = .ok st') :
    st'.cache = none
    ∧ ((registry e.2.1 = none
          ∧ st'.resolved = jsMapSet st.resolved e.1 ""
          ∧ st'.warnings = st.warnings ++ [.unknownProvider e.2.1 e.2.2])
       ∨ (registry e.2.1 ≠ none
          ∧ (∃ v, st'.resolved = jsMapSet st.resolved e.1 v)
          ∧ (st'.warnings = st.warnings
             ∨ ∃ w, (w = Warning.secretNotFound e.2.1 e.2.2
                      ∨ w = Warning.secretFetchError e.2.1 e.2.2)
                 ∧ st'.warnings = st.warnings ++ [w]))) := by
  unfold processRef at hpr
  simp only [isAllowed, Bool.not_true, Bool.false_eq_true, if_false, hc] at hpr
  cases hreg2 : registry e.2.1 with
  | none =>
      rw [hreg2] at hpr
      simp only [Except.ok.injEq] at hpr
      subst hpr
      exact ⟨rfl, Or.inl ⟨rfl, rfl, rfl⟩⟩
  | some f =>
      rw [hreg2] at hpr
      simp only [] at hpr
      cases hf : f e.2.2 with
      | ok v =>
          rw [hf] at hpr
          simp only [] at hpr
          simp only [Option.map_none', Except.ok.injEq] at hpr
          subst hpr
          exact ⟨rfl, Or.inr ⟨by simp, ⟨v.getD "", rfl⟩, Or.inl rfl⟩⟩
      | err er =>
          rw [hf] at hpr
          simp only [] at hpr
          by_cases hnf : isNotFoundErr er
          · simp only [hnf, if_true] at hpr
            by_cases he : onf = OnNotFound.error
            · simp [he] at hpr
            · simp only [he, Bool.false_eq_true, if_false, decide_eq_true_eq,
                if_neg, Except.ok.injEq] at hpr
              subst hpr
              exact ⟨rfl, Or.inr ⟨by simp, ⟨"", rfl⟩,
                Or.inr ⟨Warning.secretNotFound e.2.1 e.2.2, Or.inl rfl, rfl⟩⟩⟩
          · simp only [hnf, Bool.false_eq_true, if_false, if_neg] at hpr
            by_cases he : onf = OnNotFound.error
            · simp [he] at hpr
            · simp only [he, Bool.false_eq_true, if_false, decide_eq_true_eq,
                if_neg, Except.ok.injEq] at hpr
              subst hpr
              exact ⟨rfl, Or.inr ⟨by simp, ⟨"", rfl⟩,
                Or.inr ⟨Warning.secretFetchError e.2.1 e.2.2, Or.inr rfl, rfl⟩⟩⟩


theorem count_single_w (w W : Warning) : [w].count W = if w = W then 1 else 0 := by
  by_cases h : w = W <;> simp [List.count_cons, h, List.count_nil]

theorem foldRefs_inv {registry : String → Option (String → FetchResult)}
    {ttl : Nat} {onf : OnNotFound} {now : Nat} (p k : String)
    (hreg : registry p = none) :
    ∀ (refs : List SecretRef) (st st1 : SecretsState),
      st.cache = none →
      refs.foldlM (processRef registry none ttl onf now) st = .ok st1 →
      st1.cache = none
      ∧ st1.warnings.count (.unknownProvider p k)
          = st.warnings.count (.unknownProvider p k)
            + refs.countP (fun e => e.2 == (p, k))
      ∧ (∀ fk, fk ∉ refs.map Prod.fst →
          jsMapGet st1.resolved fk = jsMapGet st.resolved fk)
      ∧ ((refs.map Prod.fst).Nodup →
          ∀ e ∈ refs, e.2.1 = p → jsMapGet st1.resolved e.1 = some "") := by
  intro refs
  induction refs with
  | nil =>
      intro st st1 hc hfold
      simp only [List.foldlM_nil, pure, Except.pure, Except.ok.injEq] at hfold
      subst hfold
      simp [hc]
  | cons e rest ih =>
      intro st st1 hc hfold
      rw [List.foldlM_cons] at hfold
      cases hpr : processRef registry none ttl onf now st e with
      | error er => rw [hpr] at hfold; simp [bind, Except.bind] at hfold
      | ok st' =>
          rw [hpr] at hfold
          simp only [bind, Except.bind] at hfold
          obtain ⟨hc', hshape⟩ := processRef_ok hc hpr
          obtain ⟨g1, g2, g3, g4⟩ := ih st' st1 hc' hfold
          have hresolved : ∃ v, st'.resolved = jsMapSet st.resolved e.1 v := by
            rcases hshape with ⟨_, hres, _⟩ | ⟨_, hres, _⟩
            · exact ⟨"", hres⟩
            · exact hres
          have hcount : st'.warnings.count (.unknownProvider p k)
              = st.warnings.count (.unknownProvider p k)
                + (if e.2 = (p, k) then 1 else 0) := by
            rcases hshape with ⟨hnone, _, hw⟩ | ⟨hsome, _, hw⟩
            · rw [hw, List.count_append, count_single_w]
              congr 1
              by_cases hpk : e.2 = (p, k)
              · have h1 : e.2.1 = p := by rw [hpk]
                have h2 : e.2.2 = k := by rw [hpk]
                simp [h1, h2, hpk]
              · have hne : Warning.unknownProvider e.2.1 e.2.2
                    ≠ Warning.unknownProvider p k := by
                  intro hcon
                  rw [Warning.unknownProvider.injEq] at hcon
                  exact hpk (by rw [← hcon.1, ← hcon.2])
                simp [hne, hpk]
            · have hpk : e.2 ≠ (p, k) := by
                intro hpk
                have h1 : e.2.1 = p := by rw [hpk]
                exact hsome (h1 ▸ hreg)
              rcases hw with hw | ⟨w, hwc, hw⟩
              · simp [hw, hpk]
              · rw [hw, List.count_append, count_single_w]
                have hne : w ≠ Warning.unknownProvider p k := by
                  rcases hwc with hwc | hwc <;> (subst hwc; intro hcon; cases hcon)
                simp [hne, hpk]
          refine ⟨g1, ?_, ?_, ?_⟩
          · rw [g2, hcount, List.countP_cons]
            have : (fun e : SecretRef => e.2 == (p, k)) e = (e.2 == (p, k)) := rfl
            by_cases hpk : e.2 = (p, k)
            · simp [hpk]
              omega
            · simp [hpk]
          · intro fk hfk
            simp only [List.map_cons, List.mem_cons] at hfk
            push_neg at hfk
            obtain ⟨v, hres⟩ := hresolved
            rw [g3 fk hfk.2, hres, jsMapGet_set_ne st.resolved v hfk.1]
          · intro hnd e' he' hp'
            simp only [List.map_cons, List.nodup_cons] at hnd
            rcases List.mem_cons.mp he' with he' | he'
            · subst he'
              rw [g3 e'.1 hnd.1]
              rcases hshape with ⟨_, hres, _⟩ | ⟨hsome, _, _⟩
              · rw [hres, jsMapGet_set_self]
              · exact absurd (hp' ▸ hreg) hsome
            · exact g4 hnd.2 e' he' hp'

theorem countP_pair (p k : String) :
    ∀ refs : List SecretRef, (refs.map Prod.fst).Nodup → (∀ e ∈ refs, refWF e) →
      refs.countP (fun e => e.2 == (p, k))
        = if (p, k) ∈ refs.map Prod.snd then 1 else 0 := by
  intro refs
  induction refs with
  | nil => intro _ _; simp
  | cons e rest ih =>
      intro hnd hwf
      simp only [List.map_cons, List.nodup_cons] at hnd
      rw [List.countP_cons]
      by_cases hpk : e.2 = (p, k)
      · have hz : rest.countP (fun e => e.2 == (p, k)) = 0 := by
          rw [List.countP_eq_zero]
          intro e' he'
          simp only [beq_iff_eq]
          intro hc
          have hwe : e.1 = e.2.1 ++ ":" ++ e.2.2 := hwf e (by simp)
          have hwe' : e'.1 = e'.2.1 ++ ":" ++ e'.2.2 := hwf e' (by simp [he'])
          have : e'.1 = e.1 := by rw [hwe, hwe', hc, hpk]
          exact hnd.1 (this ▸ List.mem_map.mpr ⟨e', he', rfl⟩)
        simp [hz, hpk]
      · rw [ih hnd.2 (fun e' he' => hwf e' (by simp [he']))]
        by_cases hm2 : (p, k) ∈ rest.map Prod.snd
        · have hm3 : (p, k) ∈ (e :: rest).map Prod.snd := by
            simp only [List.map_cons, List.mem_cons]
            exact Or.inr hm2
          simp [hpk, hm2, hm3]
        · have hm3 : ¬ ((p, k) ∈ (e :: rest).map Prod.snd) := by
            simp only [List.map_cons, List.mem_cons]
            rintro (hc | hc)
            · exact hpk hc.symm
            · exact hm2 hc
          simp [hpk, hm2, hm3]
          exact (if_neg (fun hc => hpk hc.symm)).symm

/-- C5: when the prefix `p` has no registered provider, a resolution
over any value tree records exactly one `unknown_provider` warning for
each unique collected `(prefix, key)` pair with that prefix — one for
`(p, k)` when some string leaf references it, none otherwise — and maps
the reference's full key to the empty string, which the final rewrite
then substitutes into every string leaf containing the reference. -/
theorem c5_unknown_provider :
    ∀ (t : Value) (registry : String → Option (String → FetchResult))
      (ttl : Nat) (onf : OnNotFound) (now : Nat) (p k : String) (st1 : SecretsState),
      registry p = none →
      (collectSecretRefs [] t).foldlM (processRef registry none ttl onf now)
          ⟨[], [], none⟩ = .ok st1 →
      (st1.warnings.count (.unknownProvider p k)
          = if (p, k) ∈ (collectSecretRefs [] t).map Prod.snd then 1 else 0)
      ∧ ((p ++ ":" ++ k, p, k) ∈ collectSecretRefs [] t →
          jsMapGet st1.resolved (p ++ ":" ++ k) = some "")
      ∧ (collectSecretRefs [] t ≠ [] →
          applySecretsDeep t registry none none ttl onf now []
            = .ok (replaceSecrets st1.resolved t, st1.warnings, none)) := by
  intro t registry ttl onf now p k st1 hreg hfold
  obtain ⟨hnd, hwf⟩ := collectSecretRefs_inv t [] (by simp) (by simp)
  obtain ⟨g1, g2, g3, g4⟩ := foldRefs_inv p k hreg (collectSecretRefs [] t)
      ⟨[], [], none⟩ st1 rfl hfold
  refine ⟨?_, ?_, ?_⟩
  · rw [g2, countP_pair p k (collectSecretRefs [] t) hnd hwf]
    simp
  · intro hmem
    exact g4 hnd (p ++ ":" ++ k, p, k) hmem rfl
  · intro hne
    have hempty : (collectSecretRefs [] t).isEmpty = false := by
      cases hl : collectSecretRefs [] t with
      | nil => exact absurd hl hne
      | cons a l => simp [List.isEmpty]
    simp only [applySecretsDeep, hempty, Bool.false_eq_true, if_false, hfold, g1]

def c5Tree : Value := .obj [("a", .str "$\x7bXX:k\x7d"), ("b", .arr [.str "$\x7bXX:k\x7d"])]

/-- C5 witness: one reference `${XX:k}` occurring in two string leaves
with no registered providers yields a single `unknown_provider` warning
and an empty-string resolution. -/
theorem c5_unknown_provider_witness :
    ((⟨[("XX:k", "")], [.unknownProvider "XX" "k"], none⟩ : SecretsState).warnings.count
        (.unknownProvider "XX" "k")
      = if ("XX", "k") ∈ (collectSecretRefs [] c5Tree).map Prod.snd then 1 else 0)
    ∧ (("XX" ++ ":" ++ "k", "XX", "k") ∈ collectSecretRefs [] c5Tree →
        jsMapGet (⟨[("XX:k", "")], [.unknownProvider "XX" "k"], none⟩ : SecretsState).resolved
          ("XX" ++ ":" ++ "k") = some "")
    ∧ (collectSecretRefs [] c5Tree ≠ [] →
        applySecretsDeep c5Tree (fun _ => none) none none 300000 .warn 0 []
          = .ok (replaceSecrets
              (⟨[("XX:k", "")], [.unknownProvider "XX" "k"], none⟩ : SecretsState).resolved
              c5Tree,
            (⟨[("XX:k", "")], [.unknownProvider "XX" "k"], none⟩ : SecretsState).warnings,
            none)) :=
  c5_unknown_provider c5Tree (fun _ => none) 300000 .warn 0 "XX" "k"
    ⟨[("XX:k", "")], [.unknownProvider "XX" "k"], none⟩ rfl (by decide)

/-! ## C9: heredoc parsing -/

/-- The heredoc content accumulation of `parseColony`
(`heredocContent += (heredocContent ? "\n" : "") + line` folded over the
content lines starting from `acc`).  The separator is keyed on the
ACCUMULATED content being nonempty, not on position, so content lines
seen while the accumulator is still empty get no separator. -/
def joinHeredoc (acc : String) (ls : List (List Char)) : String :=
  ls.foldl (fun a l => a ++ (if a == "" then "" else "\n") ++ String.mk l) acc

theorem runLines_cons_ok (json5 : String → Option Value) (fp : String) (pod : Bool)
    (st st1 : ParseState) (n : Nat) (l : List Char) (ls : List (List Char))
    (h : parseStep json5 fp pod st n l = .ok st1) :
    runLines json5 fp pod st n (l :: ls) = runLines json5 fp pod st1 (n + 1) ls := by
  simp only [runLines, h]

theorem runLines_heredoc (json5 : String → Option Value) (fp : String) (pod : Bool) :
    ∀ (content : List (List Char)) (rest : List (List Char)) (st : ParseState) (n : Nat),
      st.inHeredoc = true →
      (∀ l ∈ content, jsTrim (String.mk l) ≠ st.hdDelim) →
      runLines json5 fp pod st n (content ++ rest)
        = runLines json5 fp pod { st with hdContent := joinHeredoc st.hdContent content }
            (n + content.length) rest := by
  intro content
  induction content with
  | nil =>
      intro rest st n hin hne
      rfl
  | cons l ls ih =>
      intro rest st n hin hne
      have hstep : parseStep json5 fp pod st n l
          = .ok { st with
              hdContent :=
                st.hdContent ++ (if st.hdContent == "" then "" else "\n") ++ String.mk l } := by
        simp only [parseStep, hin, if_true]
        rw [if_neg]
        simp only [beq_iff_eq]
        exact hne l (by simp)
      have harith : n + (l :: ls).length = n + 1 + ls.length := by
        simp only [List.length_cons]
        omega
      rw [List.cons_append,
        runLines_cons_ok json5 fp pod st _ n l (ls ++ rest) hstep, harith]
      exact ih rest { st with
          hdContent :=
            st.hdContent ++ (if st.hdContent == "" then "" else "\n") ++ String.mk l }
        (n + 1) hin (fun l1 hl1 => hne l1 (by simp [hl1]))

/-- C9 (amended): from a state outside a heredoc, a header line whose
trimmed form matches `key op <<DELIM`, content lines none of which TRIMS
to the delimiter, and a closing line TRIMMING to the delimiter produce
exactly one rule at the header's line number whose string value is the
fold `content += (content ? "\n" : "") + line` over the content lines
(newline-joined, except that lines seen while the accumulated content is
still empty get no separator, so leading empty lines are dropped), with
no literal decoding; and when the closing line never comes, the parse
fails with `Unterminated heredoc (missing DELIM)` at the header's line
number. -/
theorem c9_heredoc (json5 : String → Option Value) (fp : String)
    (st0 : ParseState) (n : Nat) (header : List Char)
    (keyChars : List Char) (op : Op) (delim : String)
    (content : List (List Char)) (delimLine : List Char) (post : List (List Char))
    (hin : st0.inHeredoc = false)
    (hc1 : strStartsWith (jsTrim (String.mk header)) "#" = false)
    (hc2 : strStartsWith (jsTrim (String.mk header)) "//" = false)
    (hscan : scanStmt heredocTail [] (jsTrim (String.mk header)).toList
        = some (keyChars, op, delim))
    (hne : ∀ l ∈ content, jsTrim (String.mk l) ≠ delim)
    (hdl : jsTrim (String.mk delimLine) = delim)
    (hkey : parseKeyPath (jsTrim (String.mk keyChars)) ≠ []) :
    (runLines json5 fp false st0 n (header :: content ++ delimLine :: post)
        = runLines json5 fp false
            { st0 with
              rules := st0.rules ++ [⟨fp, n, 0, jsTrim (String.mk keyChars),
                parseKeyPath (jsTrim (String.mk keyChars)), op, .str (joinHeredoc "" content)⟩],
              inHeredoc := false, hdKey := jsTrim (String.mk keyChars), hdOp := op,
              hdDelim := delim, hdStartLine := n, hdContent := "" }
            (n + content.length + 2) post)
    ∧ ((runLines json5 fp false st0 n (header :: content)).bind parseFinish
        = .error ⟨n, "Unterminated heredoc (missing " ++ delim ++ ")"⟩) := by
  have htr : (jsTrim (String.mk header) == "") = false := by
    by_contra hcon
    rw [Bool.not_eq_false, beq_iff_eq] at hcon
    have hred : scanStmt heredocTail [] ("" : String).toList
        = (none : Option (List Char × Op × String)) := rfl
    rw [hcon, hred] at hscan
    exact Option.noConfusion hscan
  have hcond : (jsTrim (String.mk header) == ""
      || strStartsWith (jsTrim (String.mk header)) "#"
      || strStartsWith (jsTrim (String.mk header)) "//") = false := by
    rw [htr, hc1, hc2]
    rfl
  have hstep : parseStep json5 fp false st0 n header
      = .ok { st0 with
          inHeredoc := true, hdKey := jsTrim (String.mk keyChars), hdOp := op,
          hdDelim := delim, hdStartLine := n, hdContent := "" } := by
    have hscan2 : scanStmt heredocTail [] (jsTrim (String.mk header)).data
        = some (keyChars, op, delim) := hscan
    simp [parseStep, hin, hcond, hscan, hscan2]
  have hk2 : (parseKeyPath (jsTrim (String.mk keyChars))).isEmpty = false := by
    cases hp : parseKeyPath (jsTrim (String.mk keyChars)) with
    | nil => exact absurd hp hkey
    | cons a l => rfl
  have hH2 : runLines json5 fp false
      { st0 with
        inHeredoc := true, hdKey := jsTrim (String.mk keyChars), hdOp := op,
        hdDelim := delim, hdStartLine := n, hdContent := "" } (n + 1)
        (content ++ delimLine :: post)
      = runLines json5 fp false
        { st0 with
          inHeredoc := true, hdKey := jsTrim (String.mk keyChars), hdOp := op,
          hdDelim := delim, hdStartLine := n, hdContent := joinHeredoc "" content }
        (n + 1 + content.length) (delimLine :: post) :=
    runLines_heredoc json5 fp false content (delimLine :: post)
      { st0 with
        inHeredoc := true, hdKey := jsTrim (String.mk keyChars), hdOp := op,
        hdDelim := delim, hdStartLine := n, hdContent := "" } (n + 1) rfl hne
  have hstep2 : parseStep json5 fp false
      { st0 with
        inHeredoc := true, hdKey := jsTrim (String.mk keyChars), hdOp := op,
        hdDelim := delim, hdStartLine := n, hdContent := joinHeredoc "" content }
      (n + 1 + content.length) delimLine
      = .ok { st0 with
          rules := st0.rules ++ [⟨fp, n, 0, jsTrim (String.mk keyChars),
            parseKeyPath (jsTrim (String.mk keyChars)), op, .str (joinHeredoc "" content)⟩],
          inHeredoc := false, hdKey := jsTrim (String.mk keyChars), hdOp := op,
          hdDelim := delim, hdStartLine := n, hdContent := "" } := by
    simp [parseStep, hdl, hk2]
  constructor
  · rw [List.cons_append,
      runLines_cons_ok json5 fp false st0 _ n header (content ++ delimLine :: post) hstep,
      hH2,
      runLines_cons_ok json5 fp false _ _ (n + 1 + content.length) delimLine post hstep2,
      show n + 1 + content.length + 1 = n + content.length + 2 from by omega]
  · have f2 : runLines json5 fp false
        { st0 with
          inHeredoc := true, hdKey := jsTrim (String.mk keyChars), hdOp := op,
          hdDelim := delim, hdStartLine := n, hdContent := "" } (n + 1) content
        = .ok { st0 with
            inHeredoc := true, hdKey := jsTrim (String.mk keyChars), hdOp := op,
            hdDelim := delim, hdStartLine := n, hdContent := joinHeredoc "" content } := by
      have h3 := runLines_heredoc json5 fp false content []
        { st0 with
          inHeredoc := true, hdKey := jsTrim (String.mk keyChars), hdOp := op,
          hdDelim := delim, hdStartLine := n, hdContent := "" } (n + 1) rfl hne
      rw [List.append_nil] at h3
      exact h3
    rw [runLines_cons_ok json5 fp false st0 _ n header content hstep, f2]
    rfl

def c9Text : String := "k = <<EOF\n\nx\nEOF"

/-- C9 counterexample to the claim as stated: the heredoc content lines
of `c9Text` are `""` and `"x"`, whose verbatim newline join is `"\nx"`,
but the parser produces the rule value `"x"`: the accumulation drops
the leading empty content line, so the value is NOT the verbatim
newline join of the content lines. -/
theorem c9_heredoc_drops_leading_blank :
    parseColony (fun _ => none) c9Text "f" false
      = .ok ⟨none, [], [], [], [⟨"f", 1, 0, "k", ["k"], .assign, .str "x"⟩]⟩
    ∧ ("x" : String) ≠ "\nx" :=
  ⟨by decide, by decide⟩

/-- C9 witness: the amended heredoc theorem at a concrete input
(`k = <<EOF`, content lines `""` and `"x"`, closing `EOF`). -/
theorem c9_heredoc_witness :
    (runLines (fun _ => none) "f" false initParseState 1
        ("k = <<EOF".toList :: [[], ['x']] ++ "EOF".toList :: [])
      = runLines (fun _ => none) "f" false
          { initParseState with
            rules := initParseState.rules ++ [⟨"f", 1, 0, jsTrim (String.mk "k".toList),
              parseKeyPath (jsTrim (String.mk "k".toList)), .assign,
              .str (joinHeredoc "" [[], ['x']])⟩],
            inHeredoc := false, hdKey := jsTrim (String.mk "k".toList), hdOp := .assign,
            hdDelim := "EOF", hdStartLine := 1, hdContent := "" }
          (1 + ([[], ['x']] : List (List Char)).length + 2) [])
    ∧ ((runLines (fun _ => none) "f" false initParseState 1
          ("k = <<EOF".toList :: [[], ['x']])).bind parseFinish
        = .error ⟨1, "Unterminated heredoc (missing " ++ "EOF" ++ ")"⟩) :=
  c9_heredoc (fun _ => none) "f" initParseState 1 "k = <<EOF".toList "k".toList .assign "EOF"
    [[], ['x']] "EOF".toList [] rfl (by decide) (by decide) (by decide) (by decide)
    (by decide) (by decide)
